import Mathlib

/-!
Verification of the pipe-steps repository.

Part 1 embeds the graph-based pipeline of
`prototypes/solution4_graph/path_pipeline_graph.py`: steps are registered in
an insertion-ordered dictionary, channel-qualified connections are appended to
a connection log together with a plain adjacency edge, Kahn's algorithm
produces the execution order, a DFS detects cycles, and `run` drives the steps
in order, assembling each step's input map from the connection log.

Part 2 embeds the batch pipeline of `src/pipe_steps/batch/batch_pipeline.py`
together with `src/pipe_steps/frontier.py`: a fueled run loop fetches batches,
threads them through the configured transforms, persists a checkpoint per
committed batch and advances a durable frontier record only at commit time.

Python dictionaries are modelled as insertion-ordered association lists whose
update operation replaces the value of an existing key in place; Python `int`
is modelled as `Int`; functions that may raise return `Except String`.
-/

namespace PipeSteps

/-- Lookup in a Python-style dict (association list); first matching key. -/
def dictGet {β : Type} (d : List (String × β)) (k : String) : Option β :=
  match d with
  | [] => none
  | (k', v) :: rest => if k' = k then some v else dictGet rest k

/-- `d[k] = v` on a Python dict: replace in place if the key exists, else
append at the end (insertion order preserved). -/
def dictSet {β : Type} (d : List (String × β)) (k : String) (v : β) :
    List (String × β) :=
  match d with
  | [] => [(k, v)]
  | (k', v') :: rest => if k' = k then (k, v) :: rest else (k', v') :: dictSet rest k v

/-- In-place modification of an existing key's value (`d[k] += 1` and the like).
A missing key is a no-op; in the source this situation raises `KeyError` and is
unreachable for pipelines built through the public API. -/
def dictModify {β : Type} (d : List (String × β)) (k : String) (f : β → β) :
    List (String × β) :=
  match d with
  | [] => []
  | (k', v) :: rest => if k' = k then (k', f v) :: rest else (k', v) :: dictModify rest k f

/-- `d.get(k, v)`. -/
def dictGetD {β : Type} (d : List (String × β)) (k : String) (v : β) : β :=
  (dictGet d k).getD v

/-- Python `repr` of a list of strings, as interpolated into error messages:
`['a', 'b']`. -/
def pyListRepr (l : List String) : String :=
  "[" ++ String.intercalate ", " (l.map (fun s => "\x27" ++ s ++ "\x27")) ++ "]"

/-- `PathStep` of `path_step_graph.py`: declared input/output channels and the
`process` transform over channel-indexed item dictionaries.  The item payload
(`PathItem`) is opaque; it is the type parameter `α`.  An item dictionary
`dict[str, PathItem]` is `List (String × α)`; `process` maps a channel
dictionary to a channel dictionary. -/
structure PathStep (α : Type) where
  name : String
  input_channels : List String
  output_channels : List String
  process : List (String × List (String × α)) → List (String × List (String × α))

/-- `Connection` of `path_pipeline_graph.py`. -/
structure Connection where
  from_step : String
  to_step : String
  from_channel : String
  to_channel : String
deriving DecidableEq

/-- The state of a `PathPipeline`: registered steps, derived adjacency graph
and connection log. -/
structure PathPipeline (α : Type) where
  steps : List (String × PathStep α)
  graph : List (String × List String)
  connections : List Connection

/-- The empty pipeline built by `PathPipeline.__init__`. -/
def PathPipeline.empty (α : Type) : PathPipeline α := ⟨[], [], []⟩

/-- `PathPipeline.add_step`: reject a duplicate id, otherwise register the step
and initialize its adjacency list. -/
def add_step {α : Type} (p : PathPipeline α) (step_id : String) (step : PathStep α) :
    Except String (PathPipeline α) :=
  match dictGet p.steps step_id with
  | some _ => .error ("Step " ++ step_id ++ " already exists")
  | none =>
      .ok { p with
              steps := dictSet p.steps step_id step,
              graph := dictSet p.graph step_id [] }

/-- `self.graph[from_step].append(to_step)` on the defaultdict adjacency map. -/
def graphAppendEdge (g : List (String × List String)) (f t : String) :
    List (String × List String) :=
  match g with
  | [] => [(f, [t])]
  | (k, l) :: rest => if k = f then (k, l ++ [t]) :: rest else (k, l) :: graphAppendEdge rest f t

/-- `PathPipeline.connect`: validate that both steps exist and that the
channels are declared, then append the adjacency edge and the connection.
All validation precedes every mutation, exactly as in the source. -/
def connect {α : Type} (p : PathPipeline α) (from_step to_step from_channel to_channel : String) :
    Except String (PathPipeline α) :=
  match dictGet p.steps from_step with
  | none => .error ("Step " ++ from_step ++ " not found")
  | some from_step_obj =>
    match dictGet p.steps to_step with
    | none => .error ("Step " ++ to_step ++ " not found")
    | some to_step_obj =>
      if (from_step_obj.output_channels.contains from_channel) = false then
        .error ("Step " ++ from_step ++ " does not have output channel \x27" ++ from_channel
          ++ "\x27. Available: " ++ pyListRepr from_step_obj.output_channels)
      else if (to_step_obj.input_channels.contains to_channel) = false then
        .error ("Step " ++ to_step ++ " does not have input channel \x27" ++ to_channel
          ++ "\x27. Available: " ++ pyListRepr to_step_obj.input_channels)
      else
        .ok { p with
                graph := graphAppendEdge p.graph from_step to_step,
                connections := p.connections
                  ++ [⟨from_step, to_step, from_channel, to_channel⟩] }

/-- In-degree initialization plus the double loop
`for step_id in self.graph: for neighbor in self.graph[step_id]: in_degree[neighbor] += 1`.
Degrees are `Int`, as in Python. -/
def computeInDegrees {α : Type} (p : PathPipeline α) : List (String × Int) :=
  p.graph.foldl
    (fun d kv => kv.2.foldl (fun d' n => dictModify d' n (fun v => v + 1)) d)
    (p.steps.map (fun s => (s.1, (0 : Int))))

/-- Inner loop of Kahn's algorithm: decrement the in-degree of each neighbor of
the dequeued node, enqueuing a neighbor whose in-degree reaches zero. -/
def kahnVisit (deg : List (String × Int)) (queue : List String) :
    List String → List (String × Int) × List String
  | [] => (deg, queue)
  | n :: rest =>
      let deg' := dictModify deg n (fun v => v - 1)
      if dictGetD deg' n 0 = 0 then kahnVisit deg' (queue ++ [n]) rest
      else kahnVisit deg' queue rest

/-- The Kahn worklist loop.  `fuel` bounds the number of dequeues; every node
is enqueued at most once, so `p.steps.length` fuel always suffices (proved
below). -/
def kahnLoop (g : List (String × List String)) :
    Nat → List (String × Int) → List String → List String → List String
  | 0, _, _, result => result
  | _ + 1, _, [], result => result
  | fuel + 1, deg, current :: rest, result =>
      let s := kahnVisit deg rest ((dictGet g current).getD [])
      kahnLoop g fuel s.1 s.2 (result ++ [current])

/-- `PathPipeline._topological_sort`.  The raised `ValueError` names the
unprocessed steps; the error value here is that list (interpolated into the
message by the callers). -/
def topologicalSort {α : Type} (p : PathPipeline α) : Except (List String) (List String) :=
  let in_degree := computeInDegrees p
  let queue := (in_degree.filter (fun kv => kv.2 = 0)).map Prod.fst
  let result := kahnLoop p.graph p.steps.length in_degree queue []
  if result.length = p.steps.length then .ok result
  else .error ((p.steps.map Prod.fst).filter (fun s => (result.contains s) = false))

/-- One activation of `dfs(node)` in `PathPipeline._has_cycle`: mark the node
visited and on the recursion stack, scan the neighbors in order (an already
visited neighbor on the stack signals a cycle; an unvisited one is explored
recursively), then pop the node off the stack.  The `visited` and `rec_stack`
sets are lists (kept duplicate-free by construction); the early `return True`
is modelled by the flag component short-circuiting the scan.  `fuel` bounds
the recursion depth; `p.steps.length + 1` always suffices (proved below). -/
def dfsVisit (g : List (String × List String)) :
    Nat → String → List String → List String → Bool × List String × List String
  | 0, _, vis, stk => (true, vis, stk)
  | fuel + 1, node, vis, stk =>
      let vis0 := vis ++ [node]
      let stk0 := stk ++ [node]
      let r := ((dictGet g node).getD []).foldl
        (fun (acc : Bool × List String × List String) n =>
          if acc.1 then acc
          else if acc.2.1.contains n then
            (if acc.2.2.contains n then (true, acc.2.1, acc.2.2) else acc)
          else dfsVisit g fuel n acc.2.1 acc.2.2)
        (false, vis0, stk0)
      if r.1 then r
      else (false, r.2.1, r.2.2.filter (fun x => x ≠ node))

/-- The loop `for step_id in self.steps: if step_id not in visited: if dfs(step_id): return True`
of `PathPipeline._has_cycle`, threading the visited and stack sets. -/
def hasCycleScan (g : List (String × List String)) (fuel : Nat) :
    List String → List String → List String → Bool
  | [], _, _ => false
  | s :: rest, vis, stk =>
      if vis.contains s then hasCycleScan g fuel rest vis stk
      else
        let r := dfsVisit g fuel s vis stk
        if r.1 then true else hasCycleScan g fuel rest r.2.1 r.2.2

/-- `PathPipeline._has_cycle`. -/
def hasCycle {α : Type} (p : PathPipeline α) : Bool :=
  hasCycleScan p.graph (p.steps.length + 1) (p.steps.map Prod.fst) [] []

/-- `PathPipeline._get_step_inputs`: scan the connection log in insertion
order; every connection into `step_id` whose source step has recorded an
output under the source channel binds that output to the connection's target
channel (later bindings overwrite earlier ones, Python dict assignment). -/
def getStepInputs {α : Type} (p : PathPipeline α) (step_id : String)
    (step_outputs : List (String × List (String × List (String × α)))) :
    List (String × List (String × α)) :=
  p.connections.foldl
    (fun inputs conn =>
      if conn.to_step = step_id then
        match dictGet step_outputs conn.from_step with
        | some pred_outputs =>
            match dictGet pred_outputs conn.from_channel with
            | some items => dictSet inputs conn.to_channel items
            | none => inputs
        | none => inputs
      else inputs)
    []

/-- The part of the loop body of `PathPipeline.run` that follows the
`self.steps[step_id]` lookup: the first step of the order (when no
`start_step` was given) receives `initial_items` on its unique input channel,
or the run fails when it does not declare exactly one input channel; any other
step gathers its inputs from the connection log.  A step whose input map is
empty is skipped; otherwise its `process` output is recorded under its id. -/
def execStepCore {α : Type} (p : PathPipeline α) (initial_items : List (String × α))
    (start_step : Option String) (order : List String)
    (step_outputs : List (String × List (String × List (String × α))))
    (step_id : String) (step : PathStep α) :
    Except String (List (String × List (String × List (String × α)))) :=
  match
    (if order.head? = some step_id ∧ start_step = none then
      match step.input_channels with
      | [c] => .ok [(c, initial_items)]
      | _ => .error ("First step " ++ step_id
          ++ " has multiple input channels. Please specify explicit connections.")
     else .ok (getStepInputs p step_id step_outputs) :
      Except String (List (String × List (String × α)))) with
  | .error e => .error e
  | .ok inputs =>
    if inputs.isEmpty then .ok step_outputs
    else .ok (dictSet step_outputs step_id (step.process inputs))

/-- The body of the execution loop in `PathPipeline.run` for one step of the
execution order (`step = self.steps[step_id]`, then `execStepCore`). -/
def execStep {α : Type} (p : PathPipeline α) (initial_items : List (String × α))
    (start_step : Option String) (order : List String)
    (step_outputs : List (String × List (String × List (String × α))))
    (step_id : String) :
    Except String (List (String × List (String × List (String × α)))) :=
  match dictGet p.steps step_id with
  | none => .error ("KeyError: " ++ step_id)
  | some step => execStepCore p initial_items start_step order step_outputs step_id step

/-- The execution loop of `PathPipeline.run` over a computed order; a raise in
the loop body aborts the remaining iterations. -/
def runLoop {α : Type} (p : PathPipeline α) (initial_items : List (String × α))
    (start_step : Option String) (order : List String) :
    Except String (List (String × List (String × List (String × α)))) :=
  order.foldl
    (fun acc step_id =>
      match acc with
      | .error e => .error e
      | .ok outs => execStep p initial_items start_step order outs step_id)
    (.ok [])

/-- `PathPipeline.run`: cycle check, topological sort, then the execution
loop.  The returned value is the run-scoped `step_outputs` dictionary. -/
def run {α : Type} (p : PathPipeline α) (initial_items : List (String × α))
    (start_step : Option String) :
    Except String (List (String × List (String × List (String × α)))) :=
  if hasCycle p then .error "Pipeline contains a cycle"
  else
    match topologicalSort p with
    | .error unprocessed =>
        .error ("Pipeline contains a cycle. Unprocessed steps: " ++ pyListRepr unprocessed)
    | .ok execution_order => runLoop p initial_items start_step execution_order

/-- `PathPipeline.validate`: collect error and warning messages.  The
propagated `ValueError` of `_topological_sort` (possible only when `_has_cycle`
disagrees with the sort, which cannot happen) is the `Except` error case. -/
def validate {α : Type} (p : PathPipeline α) : Except String (List String) :=
  let cycleErrors : List String := if hasCycle p then ["Pipeline contains a cycle"] else []
  let orderE : Except String (List String) :=
    if hasCycle p then .ok []
    else
      match topologicalSort p with
      | .ok l => .ok l
      | .error unprocessed =>
          .error ("Pipeline contains a cycle. Unprocessed steps: " ++ pyListRepr unprocessed)
  match orderE with
  | .error e => .error e
  | .ok execution_order =>
    let starting_steps := (p.steps.map Prod.fst).filter
      (fun s => (p.connections.any (fun conn => conn.to_step = s)) = false)
    let startErrors : List String :=
      if starting_steps.length = 0 ∧ p.steps.length > 0 then
        ["No starting steps found (all steps have incoming connections)"]
      else if starting_steps.length > 1 then
        ["Multiple starting steps found: " ++ pyListRepr starting_steps]
      else []
    let inputErrors : List String := p.steps.foldl
      (fun acc sp =>
        if starting_steps.contains sp.1 then acc
        else acc ++ (sp.2.input_channels.filter
            (fun ch => (p.connections.any
              (fun conn => conn.to_step = sp.1 ∧ conn.to_channel = ch)) = false)).map
          (fun ch => "Step " ++ sp.1 ++ ": Input channel \x27" ++ ch ++ "\x27 is not connected"))
      []
    let outputWarnings : List String := p.steps.foldl
      (fun acc sp =>
        acc ++ (sp.2.output_channels.filter
            (fun ch => (p.connections.any
              (fun conn => conn.from_step = sp.1 ∧ conn.from_channel = ch)) = false)).filterMap
          (fun ch =>
            if execution_order.isEmpty = false ∧ execution_order.getLast? = some sp.1 then none
            else some ("Warning: Step " ++ sp.1 ++ ": Output channel \x27" ++ ch
              ++ "\x27 is not connected")))
      []
    .ok (cycleErrors ++ startErrors ++ inputErrors ++ outputWarnings)

/-- The registered step ids, in insertion order. -/
def stepIds {α : Type} (p : PathPipeline α) : List String := p.steps.map Prod.fst

/-- The adjacency list of a step (`self.graph[x]`, defaulting like the
defaultdict for an absent key). -/
def adj {α : Type} (p : PathPipeline α) (x : String) : List String :=
  (dictGet p.graph x).getD []

/-- The derived adjacency relation of the graph. -/
def Edge {α : Type} (p : PathPipeline α) (x y : String) : Prop := y ∈ adj p x

/-- Reachability through at least one edge of the derived adjacency
relation. -/
inductive Reach {α : Type} (p : PathPipeline α) : String → String → Prop where
  | single {a b : String} : Edge p a b → Reach p a b
  | tail {a b c : String} : Reach p a b → Edge p b c → Reach p a c

/-- The derived adjacency relation contains a cycle. -/
def Cyclic {α : Type} (p : PathPipeline α) : Prop := ∃ a, Reach p a a

/-- Structural invariants of every pipeline built through `add_step` and
`connect`: step ids are unique, the adjacency map has exactly the registered
ids as keys, every edge target is registered, and every logged connection has
a matching adjacency edge between registered steps. -/
def WF {α : Type} (p : PathPipeline α) : Prop :=
  (p.steps.map Prod.fst).Nodup ∧
  p.graph.map Prod.fst = p.steps.map Prod.fst ∧
  (∀ kv ∈ p.graph, ∀ n ∈ kv.2, n ∈ p.steps.map Prod.fst) ∧
  (∀ c ∈ p.connections,
    c.to_step ∈ adj p c.from_step ∧
    c.from_step ∈ p.steps.map Prod.fst ∧ c.to_step ∈ p.steps.map Prod.fst)

instance {α : Type} (p : PathPipeline α) : Decidable (WF p) := by
  unfold WF
  infer_instance

/-!  Part 2: the batch pipeline (`batch_pipeline.py`, `frontier.py`,
`batch.py`).  The tabular payload of a batch is an opaque row list over a row
type `ρ`; the durable state (the frontier JSON file plus the per-batch parquet
checkpoints of one checkpoint directory) is an explicit `Store` value. -/

/-- `Frontier` of `frontier.py`. -/
structure Frontier where
  last_completed_batch_id : Int
  last_completed_row : Int
  total_rows_processed : Int
  step_states : List (String × Int)
deriving DecidableEq

/-- The fresh frontier `Frontier()`. -/
def Frontier.init : Frontier := ⟨-1, -1, 0, []⟩

/-- `Frontier.update_step`. -/
def Frontier.update_step (f : Frontier) (step_name : String) (batch_id : Int) : Frontier :=
  { f with step_states := dictSet f.step_states step_name batch_id }

/-- `Frontier.advance_frontier`. -/
def Frontier.advance_frontier (f : Frontier) (batch_id end_row : Int) : Frontier :=
  { f with
      last_completed_batch_id := batch_id,
      last_completed_row := end_row,
      total_rows_processed := end_row + 1 }

/-- `Frontier.all_steps_completed`. -/
def Frontier.all_steps_completed (f : Frontier) (batch_id : Int) (step_names : List String) :
    Bool :=
  step_names.all (fun s => batch_id ≤ dictGetD f.step_states s (-1))

/-- `Batch` of `batch.py`; `data` is the row list of the tabular payload. -/
structure Batch (ρ : Type) where
  batch_id : Int
  start_row : Int
  end_row : Int
  data : List ρ
deriving DecidableEq

/-- `Batch.size`. -/
def Batch.size {ρ : Type} (b : Batch ρ) : Nat := b.data.length

/-- `BatchStep` of `batch_step.py`: a named transform over batches that may
raise. -/
structure BatchStep (ρ : Type) where
  name : String
  process : Batch ρ → Except String (Batch ρ)

instance {ε β : Type} [DecidableEq ε] [DecidableEq β] : DecidableEq (Except ε β) := fun a b =>
  match a, b with
  | .error e, .error e' =>
      if h : e = e' then .isTrue (by rw [h]) else .isFalse (by simp [h])
  | .error _, .ok _ => .isFalse (by simp)
  | .ok _, .error _ => .isFalse (by simp)
  | .ok v, .ok v' =>
      if h : v = v' then .isTrue (by rw [h]) else .isFalse (by simp [h])

instance : DecidableEq (List (String × Nat)) := inferInstance

instance : DecidableEq (List (String × List (String × Nat))) := inferInstance

instance : DecidableEq (List (String × List (String × List (String × Nat)))) := inferInstance

/-- Integer-keyed dict lookup (checkpoints are keyed by batch id). -/
def intDictGet {β : Type} (d : List (Int × β)) (k : Int) : Option β :=
  match d with
  | [] => none
  | (k', v) :: rest => if k' = k then some v else intDictGet rest k

/-- Integer-keyed dict update (writing `batch_<id>.parquet` overwrites an
existing artifact for the same id). -/
def intDictSet {β : Type} (d : List (Int × β)) (k : Int) (v : β) : List (Int × β) :=
  match d with
  | [] => [(k, v)]
  | (k', v') :: rest => if k' = k then (k, v) :: rest else (k', v') :: intDictSet rest k v

/-- The durable contents of one checkpoint directory: the optional
`frontier.json` record and the `batch_<id>.parquet` artifacts keyed by batch
id. -/
structure Store (ρ : Type) where
  frontier_file : Option Frontier
  checkpoints : List (Int × List ρ)
deriving DecidableEq

/-- The checkpoint file name `batch_<id>.parquet` of
`BatchPipeline._get_batch_checkpoint_path`. -/
def batchFileName (batch_id : Int) : String :=
  "batch_" ++ toString batch_id ++ ".parquet"

/-- The duplicate-step-name check of `BatchPipeline.__init__`
(`len(step_names) != len(set(step_names))`). -/
def checkStepNames {ρ : Type} (steps : List (BatchStep ρ)) : Except String Unit :=
  let step_names := steps.map (fun s => s.name)
  if (step_names.length = step_names.dedup.length) = false then
    .error "Duplicate step names are not allowed in the pipeline."
  else .ok ()

/-- The inner transform loop of `BatchPipeline.run`: thread the batch through
every step in order, updating the step's in-memory frontier entry after each
successful transform.  A raise aborts the loop; the frontier keeps the
updates recorded so far. -/
def processSteps {ρ : Type} (steps : List (BatchStep ρ)) (fr : Frontier) (b : Batch ρ)
    (batch_id : Int) : Except String (Batch ρ) × Frontier :=
  match steps with
  | [] => (.ok b, fr)
  | s :: rest =>
    match s.process b with
    | .error e => (.error e, fr)
    | .ok b' => processSteps rest (fr.update_step s.name batch_id) b' batch_id

/-- The observable outcome of a (terminating prefix of a) batch run: the
durable store, the in-memory frontier, the batch ids passed to the fetcher in
order, the number of committed batches, and normal or exceptional
termination. -/
structure RunOut (ρ : Type) where
  store : Store ρ
  frontier : Frontier
  fetch_calls : List Int
  batches_processed : Nat
  result : Except String Unit
deriving DecidableEq

/-- The `while True` loop of `BatchPipeline.run`: fetch the next batch (an
absent batch ends the run; a fetch raise propagates), process it through all
steps (a raise propagates, leaving the durable store untouched), then commit:
persist the checkpoint keyed by the processed batch's id, advance the
frontier and persist it.  `fuel` bounds the number of iterations; `none` means
the loop did not terminate within `fuel` iterations (the source loops for as
long as the fetcher produces batches). -/
def batchLoop {ρ : Type} (steps : List (BatchStep ρ))
    (batch_fetcher : Int → Int → Except String (Option (Batch ρ))) (batch_size : Int) :
    Nat → Int → Frontier → Store ρ → List Int → Nat → Option (RunOut ρ)
  | 0, _, _, _, _, _ => none
  | fuel + 1, batch_id, fr, st, trace, committed =>
    match batch_fetcher batch_id batch_size with
    | .error e => some ⟨st, fr, trace ++ [batch_id], committed, .error e⟩
    | .ok none => some ⟨st, fr, trace ++ [batch_id], committed, .ok ()⟩
    | .ok (some batch) =>
      match processSteps steps fr batch batch_id with
      | (.error e, fr') => some ⟨st, fr', trace ++ [batch_id], committed, .error e⟩
      | (.ok current, fr') =>
        let fr2 := fr'.advance_frontier batch_id current.end_row
        let st2 : Store ρ :=
          { frontier_file := some fr2,
            checkpoints := intDictSet st.checkpoints current.batch_id current.data }
        batchLoop steps batch_fetcher batch_size fuel (batch_id + 1) fr2 st2
          (trace ++ [batch_id]) (committed + 1)

/-- `BatchPipeline.run` over a checkpoint directory `store`: load the frontier
(as `__init__` does), on `resume=False` reset the in-memory frontier and
delete the checkpoint artifacts (the frontier file itself is not deleted),
then loop starting at `last_completed_batch_id + 1`. -/
def batchRun {ρ : Type} (steps : List (BatchStep ρ))
    (batch_fetcher : Int → Int → Except String (Option (Batch ρ))) (batch_size : Int)
    (fuel : Nat) (store : Store ρ) (resume : Bool) : Option (RunOut ρ) :=
  let loaded := store.frontier_file.getD Frontier.init
  let fr := if resume then loaded else Frontier.init
  let st := if resume then store else { store with checkpoints := [] }
  batchLoop steps batch_fetcher batch_size fuel (fr.last_completed_batch_id + 1) fr st [] 0

/-- Lexicographic comparison of character lists by code point. -/
def charListLt : List Char → List Char → Bool
  | [], [] => false
  | [], _ :: _ => true
  | _ :: _, [] => false
  | a :: as, b :: bs =>
      if a.toNat < b.toNat then true
      else if b.toNat < a.toNat then false
      else charListLt as bs

/-- The strict lexicographic string order that Python's `sorted` applies to
the checkpoint paths. -/
def strLt (a b : String) : Bool := charListLt a.data b.data

/-- Ascending insertion into a list of (file name, contents) pairs, ordered by
the lexicographic string order. -/
def insertByName {ρ : Type} (x : String × List ρ) :
    List (String × List ρ) → List (String × List ρ)
  | [] => [x]
  | y :: ys => if strLt x.1 y.1 then x :: y :: ys else y :: insertByName x ys

/-- `sorted(...)` over checkpoint file names. -/
def sortByName {ρ : Type} : List (String × List ρ) → List (String × List ρ)
  | [] => []
  | x :: xs => insertByName x (sortByName xs)

/-- `BatchPipeline.collect_results`: list the checkpoint artifacts, sort them
by file name, and concatenate their contents in that order (an empty store
yields an empty result). -/
def collect_results {ρ : Type} (st : Store ρ) : List ρ :=
  let files := st.checkpoints.map (fun kv => (batchFileName kv.1, kv.2))
  ((sortByName files).map Prod.snd).flatten

/-- Ascending insertion by batch id (specification side). -/
def insertById {ρ : Type} (x : Int × List ρ) : List (Int × List ρ) → List (Int × List ρ)
  | [] => [x]
  | y :: ys => if x.1 < y.1 then x :: y :: ys else y :: insertById x ys

/-- Ascending sort by batch id (specification side). -/
def sortById {ρ : Type} : List (Int × List ρ) → List (Int × List ρ)
  | [] => []
  | x :: xs => insertById x (sortById xs)

/-- Modelled from the spec (§3 Checkpoint, used only to compare with the
code): concatenation of the stored checkpoints in increasing batch-id
order. -/
def collectByIdSpec {ρ : Type} (checkpoints : List (Int × List ρ)) : List ρ :=
  ((sortById checkpoints).map Prod.snd).flatten

/-!  Verification-side predicates. -/

/-- The number of adjacency edges into `n` whose source step has not been
processed yet (is outside `result`). -/
def inCount {α : Type} (p : PathPipeline α) (result : List String) (n : String) : Nat :=
  ((p.graph.filter (fun kv => !(result.contains kv.1))).map (fun kv => kv.2.count n)).sum

/-- Every processed step's incoming edges come from strictly earlier processed
steps. -/
def KPos {α : Type} (p : PathPipeline α) (result : List String) : Prop :=
  ∀ pre x post, result = pre ++ x :: post → ∀ y, Edge p y x → y ∈ pre

/-- Loop invariant of Kahn's algorithm, between dequeues. -/
def KInv {α : Type} (p : PathPipeline α)
    (deg : List (String × Int)) (queue result : List String) : Prop :=
  deg.map Prod.fst = stepIds p ∧
  (result ++ queue).Nodup ∧
  (∀ s ∈ result ++ queue, s ∈ stepIds p) ∧
  (∀ n ∈ stepIds p, dictGetD deg n 0 = (inCount p result n : Int)) ∧
  (∀ n ∈ stepIds p, n ∉ result ++ queue → dictGetD deg n 0 ≠ 0) ∧
  (∀ n ∈ queue, ∀ x, Edge p x n → x ∈ result) ∧
  KPos p result

/-- A finish order of the depth-first search: the fully explored steps in
finishing order, every explored step's edges pointing strictly earlier. -/
def FOrd {α : Type} (p : PathPipeline α) (F : List String) : Prop :=
  F.Nodup ∧ ∀ x ∈ F, ∀ y, Edge p x y → y ∈ F ∧ F.indexOf y < F.indexOf x

/-- The visited and stack sets admit a finish order for the off-stack visited
steps. -/
def FinPack {α : Type} (p : PathPipeline α) (vis stk : List String) : Prop :=
  ∃ F, (∀ x, x ∈ F ↔ (x ∈ vis ∧ x ∉ stk)) ∧ FOrd p F

/-- The number of registered steps not yet visited; bounds the remaining
recursion depth of `dfsVisit`. -/
def unvisCount {α : Type} (p : PathPipeline α) (vis : List String) : Nat :=
  ((stepIds p).filter (fun s => !(vis.contains s))).length

/-- The pipeline with every step's `process` replaced; used to state that an
outcome does not depend on any step's transform (no step was executed). -/
def withProcs {α : Type} (p : PathPipeline α)
    (f : String → List (String × List (String × α)) → List (String × List (String × α))) :
    PathPipeline α :=
  { p with steps := p.steps.map (fun kv => (kv.1, { kv.2 with process := f kv.1 })) }

/-- Specification of the router: the values successively bound to input
channel `c` of `step_id` while scanning the connection log in order.  A
connection contributes exactly when it targets `(step_id, c)` and its source
step has recorded an output under the source channel. -/
def bindsOf {α : Type} (conns : List Connection) (step_id : String)
    (step_outputs : List (String × List (String × List (String × α)))) (c : String) :
    List (List (String × α)) :=
  conns.filterMap
    (fun conn =>
      if conn.to_step = step_id ∧ conn.to_channel = c then
        (dictGet step_outputs conn.from_step).bind
          (fun pred_outputs => dictGet pred_outputs conn.from_channel)
      else none)

/-- The loop body of `_get_step_inputs` (definitionally the `foldl` body in
`getStepInputs`). -/
def routeStep {α : Type} (step_id : String)
    (step_outputs : List (String × List (String × List (String × α))))
    (inputs : List (String × List (String × α))) (conn : Connection) :
    List (String × List (String × α)) :=
  if conn.to_step = step_id then
    match dictGet step_outputs conn.from_step with
    | some pred_outputs =>
        match dictGet pred_outputs conn.from_channel with
        | some items => dictSet inputs conn.to_channel items
        | none => inputs
    | none => inputs
  else inputs

/-- The neighbor scan of one `dfsVisit` activation, as a standalone function
(definitionally the `foldl` in `dfsVisit`). -/
def dfsFold (g : List (String × List String)) (fuel : Nat)
    (ns : List String) (acc : Bool × List String × List String) :
    Bool × List String × List String :=
  ns.foldl
    (fun (acc : Bool × List String × List String) n =>
      if acc.1 then acc
      else if acc.2.1.contains n then
        (if acc.2.2.contains n then (true, acc.2.1, acc.2.2) else acc)
      else dfsVisit g fuel n acc.2.1 acc.2.2) acc

/-!  Concrete pipelines used to exercise the theorems. -/

/-- A step with the given declared channels (payload type `Nat`). -/
def wStep (ins outs : List String) : PathStep Nat :=
  ⟨"s", ins, outs, fun _ => [("out", [("a", 1)])]⟩

/-- The three-step cycle `X -> Y -> Z -> X` of the specification's concrete
scenario, with every channel connected. -/
def xyzPipeline : PathPipeline Nat :=
  { steps := [("X", wStep ["in"] ["out"]), ("Y", wStep ["in"] ["out"]),
      ("Z", wStep ["in"] ["out"])],
    graph := [("X", ["Y"]), ("Y", ["Z"]), ("Z", ["X"])],
    connections := [⟨"X", "Y", "out", "in"⟩, ⟨"Y", "Z", "out", "in"⟩,
      ⟨"Z", "X", "out", "in"⟩] }

/-- A two-step acyclic pipeline `A -> B`. -/
def abPipeline : PathPipeline Nat :=
  { steps := [("A", wStep ["in"] ["out"]), ("B", wStep ["in"] ["out"])],
    graph := [("A", ["B"]), ("B", [])],
    connections := [⟨"A", "B", "out", "in"⟩] }

/-- An acyclic pipeline whose entry step declares two input channels. -/
def ab2Pipeline : PathPipeline Nat :=
  { steps := [("A2", wStep ["l", "r"] ["out"]), ("B", wStep ["in"] ["out"])],
    graph := [("A2", ["B"]), ("B", [])],
    connections := [⟨"A2", "B", "out", "in"⟩] }

/-- A fan-in pipeline: two sources bound to the same input channel of `T`. -/
def fanPipeline : PathPipeline Nat :=
  { steps := [("S1", wStep ["in"] ["out"]), ("S2", wStep ["in"] ["out"]),
      ("T", wStep ["in"] ["out"])],
    graph := [("S1", ["T"]), ("S2", ["T"]), ("T", [])],
    connections := [⟨"S1", "T", "out", "in"⟩, ⟨"S2", "T", "out", "in"⟩] }

/-- Recorded outputs of the two sources of `fanPipeline`. -/
def fanOutputs : List (String × List (String × List (String × Nat))) :=
  [("S1", [("out", [("a", 1)])]), ("S2", [("out", [("b", 2)])])]

/-- The identity batch transform used by the concrete batch examples. -/
def idStep : BatchStep Nat := ⟨"s1", fun b => .ok b⟩

/-- A fetcher producing one batch and then raising. -/
def failFetcher : Int → Int → Except String (Option (Batch Nat)) :=
  fun i _ => if i = 0 then .ok (some ⟨0, 0, 4, [7]⟩) else .error "boom"

/-- A fetcher producing two batches and then reporting exhaustion. -/
def finiteFetcher : Int → Int → Except String (Option (Batch Nat)) :=
  fun i _ =>
    if i = 0 then .ok (some ⟨0, 0, 4, [7]⟩)
    else if i = 1 then .ok (some ⟨1, 5, 9, [8]⟩)
    else .ok none

/-- Two configured batch steps sharing one name. -/
def dupSteps : List (BatchStep Nat) := [⟨"s1", fun b => .ok b⟩, ⟨"s1", fun b => .ok b⟩]

/-!  Association-list (Python dict) lemmas. -/

section DictLemmas

variable {β : Type}

theorem dictGet_set (d : List (String × β)) (k k' : String) (v : β) :
    dictGet (dictSet d k v) k' = if k = k' then some v else dictGet d k' := by
  induction d with
  | nil =>
      by_cases h : k = k' <;> simp [dictSet, dictGet, h]
  | cons hd tl ih =>
      obtain ⟨a, b⟩ := hd
      by_cases h1 : a = k
      · subst h1
        by_cases h2 : a = k'
        · subst h2; simp [dictSet, dictGet]
        · simp [dictSet, dictGet, h2]
      · by_cases h2 : a = k'
        · subst h2
          have hkk : ¬ k = a := fun he => h1 he.symm
          simp [dictSet, h1, dictGet, hkk]
        · simp [dictSet, h1, dictGet, h2, ih]

theorem dictGet_modify (d : List (String × β)) (k k' : String) (f : β → β) :
    dictGet (dictModify d k f) k' =
      if k = k' then (dictGet d k).map f else dictGet d k' := by
  induction d with
  | nil => by_cases h : k = k' <;> simp [dictModify, dictGet, h]
  | cons hd tl ih =>
      obtain ⟨a, b⟩ := hd
      by_cases h1 : a = k
      · subst h1
        by_cases h2 : a = k'
        · subst h2; simp [dictModify, dictGet]
        · have hkk : ¬ a = k' := h2
          simp [dictModify, dictGet, hkk]
      · by_cases h2 : a = k'
        · subst h2
          have hkk : ¬ k = a := fun he => h1 he.symm
          simp [dictModify, h1, dictGet, hkk]
        · simp [dictModify, h1, dictGet, h2, ih]

theorem dictModify_keys (d : List (String × β)) (k : String) (f : β → β) :
    (dictModify d k f).map Prod.fst = d.map Prod.fst := by
  induction d with
  | nil => rfl
  | cons hd tl ih =>
      obtain ⟨a, b⟩ := hd
      by_cases h1 : a = k <;> simp [dictModify, h1, ih]

theorem dictGet_eq_none_iff (d : List (String × β)) (k : String) :
    dictGet d k = none ↔ k ∉ d.map Prod.fst := by
  induction d with
  | nil => simp [dictGet]
  | cons hd tl ih =>
      obtain ⟨a, b⟩ := hd
      by_cases h1 : a = k
      · subst h1; simp [dictGet]
      · rw [List.map_cons, List.mem_cons]
        simp only [dictGet, if_neg h1]
        rw [ih]
        constructor
        · intro hn hor
          rcases hor with hor | hor
          · exact h1 hor.symm
          · exact hn hor
        · intro hn hmem
          exact hn (Or.inr hmem)

theorem dictGet_mem (d : List (String × β)) (k : String) (v : β)
    (h : dictGet d k = some v) : (k, v) ∈ d := by
  induction d with
  | nil => simp [dictGet] at h
  | cons hd tl ih =>
      obtain ⟨a, b⟩ := hd
      by_cases h1 : a = k
      · subst h1
        simp [dictGet] at h
        subst h
        exact List.mem_cons_self _ _
      · simp [dictGet, h1] at h
        exact List.mem_cons_of_mem _ (ih h)

theorem dictGet_of_mem_nodup (d : List (String × β)) (k : String) (v : β)
    (hmem : (k, v) ∈ d) (hnd : (d.map Prod.fst).Nodup) : dictGet d k = some v := by
  induction d with
  | nil => simp at hmem
  | cons hd tl ih =>
      obtain ⟨a, b⟩ := hd
      rw [List.map_cons] at hnd
      have hnd' := List.nodup_cons.1 hnd
      rcases List.mem_cons.1 hmem with h | h
      · have hk : k = a := congrArg Prod.fst h
        have hv : v = b := congrArg Prod.snd h
        subst hk; subst hv
        simp [dictGet]
      · have ha : ¬ a = k := by
          intro he; subst he
          exact hnd'.1 (List.mem_map.2 ⟨(a, v), h, rfl⟩)
        simp [dictGet, ha]
        exact ih h hnd'.2

theorem mem_keys_of_dictGet (d : List (String × β)) (k : String) (v : β)
    (h : dictGet d k = some v) : k ∈ d.map Prod.fst :=
  List.mem_map.2 ⟨(k, v), dictGet_mem d k v h, rfl⟩

theorem contains_true_iff (l : List String) (a : String) : l.contains a = true ↔ a ∈ l :=
  List.elem_iff

theorem contains_false_iff (l : List String) (a : String) : l.contains a = false ↔ a ∉ l := by
  rw [← Bool.not_eq_true, not_iff_not]
  exact contains_true_iff l a

end DictLemmas

/-!  Basic facts about the derived adjacency relation under `WF`. -/

section GraphBasics

variable {α : Type} {p : PathPipeline α}

theorem adj_subset (hwf : WF p) (x : String) : ∀ n ∈ adj p x, n ∈ stepIds p := by
  intro n hn
  unfold adj at hn
  cases hg : dictGet p.graph x with
  | none => rw [hg] at hn; simp at hn
  | some l =>
      rw [hg] at hn
      simp at hn
      exact hwf.2.2.1 (x, l) (dictGet_mem _ _ _ hg) n hn

theorem edge_target_mem (hwf : WF p) {x y : String} (h : Edge p x y) : y ∈ stepIds p :=
  adj_subset hwf x y h

theorem edge_source_mem (hwf : WF p) {x y : String} (h : Edge p x y) : x ∈ stepIds p := by
  unfold Edge adj at h
  cases hg : dictGet p.graph x with
  | none => rw [hg] at h; simp at h
  | some l =>
      show x ∈ p.steps.map Prod.fst
      rw [← hwf.2.1]
      exact mem_keys_of_dictGet _ _ _ hg

theorem reach_target_mem (hwf : WF p) {x y : String} (h : Reach p x y) : y ∈ stepIds p := by
  induction h with
  | single e => exact edge_target_mem hwf e
  | tail _ e _ => exact edge_target_mem hwf e

theorem reach_source_mem (hwf : WF p) {x y : String} (h : Reach p x y) : x ∈ stepIds p := by
  induction h with
  | single e => exact edge_source_mem hwf e
  | tail _ _ ih => exact ih

theorem reach_head {x y z : String} (e : Edge p x y) (h : Reach p y z) : Reach p x z := by
  induction h with
  | single e' => exact Reach.tail (Reach.single e) e'
  | tail _ e' ih => exact Reach.tail ih e'

theorem graph_keys_nodup (hwf : WF p) : (p.graph.map Prod.fst).Nodup := by
  rw [hwf.2.1]; exact hwf.1

/-- `inCount` is zero exactly when every incoming edge's source is already in
`result`. -/
theorem inCount_eq_zero_iff (hwf : WF p) (result : List String) (n : String) :
    inCount p result n = 0 ↔ ∀ x, Edge p x n → x ∈ result := by
  unfold inCount
  rw [List.sum_eq_zero_iff]
  constructor
  · intro hz x hx
    by_contra hxr
    unfold Edge adj at hx
    cases hg : dictGet p.graph x with
    | none => rw [hg] at hx; simp at hx
    | some l =>
        rw [hg] at hx
        simp at hx
        have hmem : (x, l) ∈ p.graph.filter (fun kv => !(result.contains kv.1)) := by
          rw [List.mem_filter]
          refine ⟨dictGet_mem _ _ _ hg, ?_⟩
          simp [hxr]
        have := hz (l.count n) (List.mem_map.2 ⟨(x, l), hmem, rfl⟩)
        rw [List.count_eq_zero] at this
        exact this hx
  · intro hall c hc
    rcases List.mem_map.1 hc with ⟨kv, hkv, rfl⟩
    rw [List.mem_filter] at hkv
    rw [List.count_eq_zero]
    intro hn
    have hedge : Edge p kv.1 n := by
      unfold Edge adj
      rw [dictGet_of_mem_nodup p.graph kv.1 kv.2 hkv.1 (graph_keys_nodup hwf)]
      simpa using hn
    have := hall kv.1 hedge
    simp at hkv
    exact hkv.2 this

/-- A nonzero `inCount` exhibits an unprocessed registered in-neighbor. -/
theorem exists_pred_of_inCount_ne_zero (hwf : WF p) (result : List String) (n : String)
    (h : inCount p result n ≠ 0) :
    ∃ x, x ∈ stepIds p ∧ x ∉ result ∧ Edge p x n := by
  have := (not_iff_not.2 (inCount_eq_zero_iff hwf result n)).1 h
  push_neg at this
  rcases this with ⟨x, hx, hxr⟩
  exact ⟨x, edge_source_mem hwf hx, hxr, hx⟩

end GraphBasics

/-!  Characterization of the in-degree computation and Kahn's algorithm. -/

section KahnLemmas

variable {α : Type} {p : PathPipeline α}

theorem bumpFold_get (L : List String) :
    ∀ (d : List (String × Int)) (n : String),
      dictGet (L.foldl (fun d' m => dictModify d' m (fun v => v + 1)) d) n =
        (dictGet d n).map (fun v => v + (L.count n : Int)) := by
  induction L with
  | nil =>
      intro d n
      cases h : dictGet d n <;> simp [h]
  | cons m rest ih =>
      intro d n
      rw [List.foldl_cons, ih]
      rw [dictGet_modify]
      by_cases h : m = n
      · subst h
        cases h2 : dictGet d m <;> simp [h2, List.count_cons]
        ring
      · have hnm : ¬ n = m := fun hc => h hc.symm
        simp [h, List.count_cons, hnm]

theorem bumpFold_keys (L : List String) :
    ∀ (d : List (String × Int)),
      (L.foldl (fun d' m => dictModify d' m (fun v => v + 1)) d).map Prod.fst =
        d.map Prod.fst := by
  induction L with
  | nil => intro d; rfl
  | cons m rest ih =>
      intro d
      rw [List.foldl_cons, ih, dictModify_keys]

theorem degFold_get (g : List (String × List String)) :
    ∀ (d : List (String × Int)) (n : String),
      dictGet (g.foldl (fun d kv => kv.2.foldl
          (fun d' m => dictModify d' m (fun v => v + 1)) d) d) n =
        (dictGet d n).map
          (fun v => v + ((g.map (fun kv => kv.2.count n)).sum : Int)) := by
  induction g with
  | nil =>
      intro d n
      cases h : dictGet d n <;> simp [h]
  | cons kv rest ih =>
      intro d n
      rw [List.foldl_cons, ih, bumpFold_get]
      cases h : dictGet d n <;> simp [h]
      ring

theorem degFold_keys (g : List (String × List String)) :
    ∀ (d : List (String × Int)),
      (g.foldl (fun d kv => kv.2.foldl
          (fun d' m => dictModify d' m (fun v => v + 1)) d) d).map Prod.fst =
        d.map Prod.fst := by
  induction g with
  | nil => intro d; rfl
  | cons kv rest ih =>
      intro d
      rw [List.foldl_cons, ih, bumpFold_keys]

theorem initDeg_get (steps : List (String × PathStep α)) (n : String) :
    dictGet (steps.map (fun s => (s.1, (0 : Int)))) n =
      if n ∈ steps.map Prod.fst then some 0 else none := by
  induction steps with
  | nil => simp [dictGet]
  | cons hd tl ih =>
      by_cases h : hd.1 = n
      · subst h; simp [dictGet]
      · have hne : ¬ n = hd.1 := fun hc => h hc.symm
        simp [dictGet, h, ih]
        by_cases hm : n ∈ List.map Prod.fst tl
        · simp [hm, List.mem_cons]
        · simp [hm, List.mem_cons, hne]

theorem computeInDegrees_keys : (computeInDegrees p).map Prod.fst = stepIds p := by
  unfold computeInDegrees
  rw [degFold_keys]
  unfold stepIds
  rw [List.map_map]
  rfl

theorem computeInDegrees_get (n : String) (hn : n ∈ stepIds p) :
    dictGetD (computeInDegrees p) n 0 = (inCount p [] n : Int) := by
  unfold computeInDegrees dictGetD
  rw [degFold_get, initDeg_get]
  have hn' : n ∈ p.steps.map Prod.fst := hn
  rw [if_pos hn']
  unfold inCount
  simp [Nat.cast_list_sum, List.map_map]
  rfl

theorem append_singleton_inj {γ : Type} {l₁ l₂ : List γ} {a b : γ}
    (h : l₁ ++ [a] = l₂ ++ [b]) : l₁ = l₂ ∧ a = b := by
  have := List.append_inj' h rfl
  exact ⟨this.1, by simpa using this.2⟩

/-- `KPos` extends to one more processed step whose incoming edges all come
from the previously processed steps. -/
theorem KPos_append {α : Type} {p : PathPipeline α} {result : List String} {current : String}
    (hK : KPos p result) (hcur : ∀ y, Edge p y current → y ∈ result) :
    KPos p (result ++ [current]) := by
  intro pre x post hdec y hy
  rcases post.eq_nil_or_concat with rfl | ⟨post', c, rfl⟩
  · have := append_singleton_inj hdec.symm
    rw [this.1]
    rw [← this.2] at hcur
    exact hcur y hy
  · simp only [List.concat_eq_append] at hdec
    rw [show pre ++ x :: (post' ++ [c]) = (pre ++ x :: post') ++ [c] by simp] at hdec
    have := append_singleton_inj hdec.symm
    exact hK pre x post' this.1.symm y hy

/-- A step with an incoming edge from the most recently processed step cannot
already be processed. -/
theorem not_mem_of_edge_last {α : Type} {p : PathPipeline α} {result : List String}
    {current n : String} (hnd : (result ++ [current]).Nodup)
    (hK : KPos p (result ++ [current])) (he : Edge p current n) :
    n ∉ result ++ [current] := by
  intro hmem
  rcases List.append_of_mem hmem with ⟨pre, post, hdec⟩
  have hcpre : current ∈ pre := hK pre n post hdec current he
  have hlast : (result ++ [current]).getLast? = some current := by
    simp
  rw [hdec] at hlast
  have hpost : (pre ++ n :: post).getLast? = (n :: post).getLast? := by
    apply List.getLast?_append_of_ne_nil
    simp
  rw [hpost] at hlast
  have hcmem : current ∈ n :: post := by
    rcases List.mem_getLast?_eq_getLast (l := n :: post) (x := current)
        (by rw [hlast]; rfl) with ⟨hne, hcl⟩
    rw [hcl]
    exact List.getLast_mem hne
  rw [hdec] at hnd
  have hdisj := List.disjoint_of_nodup_append hnd
  exact hdisj hcpre hcmem

/-- Invariant of the inner decrement loop of Kahn's algorithm.  `result` is
the previously processed steps and `current` the step just dequeued; `ns` is
the still unscanned suffix of `current`'s adjacency list. -/
theorem kahnVisit_inv {α : Type} {p : PathPipeline α} (hwf : WF p) (current : String)
    (result : List String) (hK : KPos p (result ++ [current])) :
    ∀ (ns : List String) (deg : List (String × Int)) (queue : List String),
    deg.map Prod.fst = stepIds p →
    (∀ n ∈ stepIds p,
      dictGetD deg n 0 = (inCount p (result ++ [current]) n : Int) + ns.count n) →
    ((result ++ [current]) ++ queue).Nodup →
    (∀ s ∈ (result ++ [current]) ++ queue, s ∈ stepIds p) →
    (∀ n ∈ queue, inCount p (result ++ [current]) n = 0 ∧ ns.count n = 0 ∧
      ∀ x, Edge p x n → x ∈ result ++ [current]) →
    (∀ n ∈ stepIds p, n ∉ (result ++ [current]) ++ queue →
      (inCount p (result ++ [current]) n : Int) + ns.count n ≠ 0) →
    (∀ n ∈ ns, Edge p current n) →
    (kahnVisit deg queue ns).1.map Prod.fst = stepIds p ∧
    (∀ n ∈ stepIds p,
      dictGetD (kahnVisit deg queue ns).1 n 0 = (inCount p (result ++ [current]) n : Int)) ∧
    ((result ++ [current]) ++ (kahnVisit deg queue ns).2).Nodup ∧
    (∀ s ∈ (result ++ [current]) ++ (kahnVisit deg queue ns).2, s ∈ stepIds p) ∧
    (∀ n ∈ (kahnVisit deg queue ns).2, inCount p (result ++ [current]) n = 0 ∧
      ∀ x, Edge p x n → x ∈ result ++ [current]) ∧
    (∀ n ∈ stepIds p, n ∉ (result ++ [current]) ++ (kahnVisit deg queue ns).2 →
      (inCount p (result ++ [current]) n : Int) ≠ 0) := by
  intro ns
  induction ns with
  | nil =>
      intro deg queue hkeys hdeg hnd hmem hq he2 _
      refine ⟨hkeys, ?_, hnd, hmem, ?_, ?_⟩
      · intro n hn
        have := hdeg n hn
        simpa using this
      · intro n hn
        exact ⟨(hq n hn).1, (hq n hn).2.2⟩
      · intro n hn hnin
        have := he2 n hn hnin
        simpa using this
  | cons n0 rest ih =>
      intro deg queue hkeys hdeg hnd hmem hq he2 hns
      have hn0step : n0 ∈ stepIds p :=
        edge_target_mem hwf (hns n0 (List.mem_cons_self _ _))
      -- the stored in-degree of n0
      have hget : ∃ v : Int, dictGet deg n0 = some v := by
        cases hg : dictGet deg n0 with
        | none =>
            rw [dictGet_eq_none_iff, hkeys] at hg
            exact absurd hn0step hg
        | some v => exact ⟨v, rfl⟩
      rcases hget with ⟨v, hv⟩
      have hvval : v = (inCount p (result ++ [current]) n0 : Int) + (n0 :: rest).count n0 := by
        have := hdeg n0 hn0step
        rw [dictGetD, hv] at this
        simpa using this
      have hcount : ((n0 :: rest).count n0 : Int) = (rest.count n0 : Int) + 1 := by
        rw [List.count_cons_self]
        push_cast
        ring
      -- the decremented value
      have hget' : dictGet (dictModify deg n0 (fun v => v - 1)) n0 = some (v - 1) := by
        rw [dictGet_modify]
        simp [hv]
      have hgetD' : dictGetD (dictModify deg n0 (fun v => v - 1)) n0 0 = v - 1 := by
        rw [dictGetD, hget']; rfl
      have hsplit : v - 1 = (inCount p (result ++ [current]) n0 : Int) + rest.count n0 := by
        rw [hvval, hcount]; ring
      -- shared facts for the updated degree map
      have hkeys' : (dictModify deg n0 (fun v => v - 1)).map Prod.fst = stepIds p := by
        rw [dictModify_keys]; exact hkeys
      have hdeg' : ∀ n ∈ stepIds p,
          dictGetD (dictModify deg n0 (fun v => v - 1)) n 0 =
            (inCount p (result ++ [current]) n : Int) + rest.count n := by
        intro n hn
        by_cases hne : n0 = n
        · subst hne
          rw [hgetD', hsplit]
        · rw [dictGetD, dictGet_modify, if_neg hne, ← dictGetD]
          rw [hdeg n hn]
          rw [List.count_cons_of_ne (fun hc => hne hc.symm)]
      by_cases hzero : dictGetD (dictModify deg n0 (fun v => v - 1)) n0 0 = 0
      · -- n0 is enqueued
        have hboth : inCount p (result ++ [current]) n0 = 0 ∧ rest.count n0 = 0 := by
          rw [hgetD', hsplit] at hzero
          constructor <;> omega
        have hndRC : (result ++ [current]).Nodup := by
          rcases List.nodup_append.1 hnd with ⟨h1, _, _⟩
          exact h1
        have hn0notin : n0 ∉ (result ++ [current]) ++ queue := by
          intro hmem0
          rcases List.mem_append.1 hmem0 with h | h
          · exact not_mem_of_edge_last hndRC hK (hns n0 (List.mem_cons_self _ _)) h
          · have := (hq n0 h).2.1
            rw [List.count_cons_self] at this
            omega
        have step : kahnVisit deg queue (n0 :: rest) =
            kahnVisit (dictModify deg n0 (fun v => v - 1)) (queue ++ [n0]) rest := by
          simp only [kahnVisit]
          rw [if_pos hzero]
        rw [step]
        apply ih
        · exact hkeys'
        · exact hdeg'
        · rw [show (result ++ [current]) ++ (queue ++ [n0]) =
            (((result ++ [current]) ++ queue) ++ [n0]) by simp]
          rw [List.nodup_append]
          refine ⟨hnd, List.nodup_singleton _, ?_⟩
          intro a ha hb
          simp at hb
          subst hb
          exact hn0notin ha
        · intro s hs
          rcases List.mem_append.1 hs with h | h
          · exact hmem s (List.mem_append.2 (Or.inl h))
          · rcases List.mem_append.1 h with h' | h'
            · exact hmem s (List.mem_append.2 (Or.inr h'))
            · rw [List.mem_singleton] at h'
              subst h'
              exact hn0step
        · intro n hn
          rcases List.mem_append.1 hn with h | h
          · have := hq n h
            refine ⟨this.1, ?_, this.2.2⟩
            have hc := this.2.1
            by_cases hne : n = n0
            · subst hne
              rw [List.count_cons_self] at hc
              omega
            · rw [List.count_cons_of_ne hne] at hc
              exact hc
          · rw [List.mem_singleton] at h
            subst h
            refine ⟨hboth.1, hboth.2, ?_⟩
            exact fun x hx => (inCount_eq_zero_iff hwf _ _).1 hboth.1 x hx
        · intro n hn hnin
          have hn' : n ∉ (result ++ [current]) ++ queue := by
            intro hc
            apply hnin
            rcases List.mem_append.1 hc with h | h
            · exact List.mem_append.2 (Or.inl h)
            · exact List.mem_append.2 (Or.inr (List.mem_append.2 (Or.inl h)))
          have hne : n ≠ n0 := by
            intro hc
            subst hc
            exact hnin (List.mem_append.2 (Or.inr (by simp)))
          have := he2 n hn hn'
          rw [List.count_cons_of_ne hne] at this
          exact this
        · exact fun n hn => hns n (List.mem_cons_of_mem _ hn)
      · -- n0 is not enqueued
        have step : kahnVisit deg queue (n0 :: rest) =
            kahnVisit (dictModify deg n0 (fun v => v - 1)) queue rest := by
          simp only [kahnVisit]
          rw [if_neg hzero]
        rw [step]
        have hnz : (inCount p (result ++ [current]) n0 : Int) + rest.count n0 ≠ 0 := by
          rw [hgetD', hsplit] at hzero
          exact hzero
        apply ih
        · exact hkeys'
        · exact hdeg'
        · exact hnd
        · exact hmem
        · intro n hn
          have := hq n hn
          refine ⟨this.1, ?_, this.2.2⟩
          have hc := this.2.1
          by_cases hne : n = n0
          · subst hne
            rw [List.count_cons_self] at hc
            omega
          · rw [List.count_cons_of_ne hne] at hc
            exact hc
        · intro n hn hnin
          by_cases hne : n = n0
          · subst hne
            exact hnz
          · have := he2 n hn hnin
            rw [List.count_cons_of_ne hne] at this
            exact this
        · exact fun n hn => hns n (List.mem_cons_of_mem _ hn)

theorem sumCount_split (g : List (String × List String)) :
    ∀ (result : List String) (current : String) (n : String),
    (g.map Prod.fst).Nodup → current ∉ result →
    ((g.filter (fun kv => !(result.contains kv.1))).map (fun kv => kv.2.count n)).sum =
      ((g.filter (fun kv => !((result ++ [current]).contains kv.1))).map
        (fun kv => kv.2.count n)).sum
      + ((dictGet g current).getD []).count n := by
  induction g with
  | nil => intro result current n _ _; simp [dictGet]
  | cons hd tl ih =>
      intro result current n hnd hcur
      obtain ⟨a, l⟩ := hd
      rw [List.map_cons] at hnd
      have hnd' := List.nodup_cons.1 hnd
      by_cases ha : a = current
      · subst ha
        have h1 : (!(result.contains (a, l).1)) = true := by
          show (!(result.contains a)) = true
          rw [(contains_false_iff result a).2 hcur]
          rfl
        have h2 : ¬ ((!((result ++ [a]).contains (a, l).1)) = true) := by
          show ¬ ((!((result ++ [a]).contains a)) = true)
          rw [(contains_true_iff (result ++ [a]) a).2 (by simp)]
          simp
        have hga : dictGet ((a, l) :: tl) a = some l := by
          simp [dictGet]
        have hfeq : tl.filter (fun kv => !((result ++ [a]).contains kv.1)) =
            tl.filter (fun kv => !(result.contains kv.1)) := by
          apply List.filter_congr
          intro kv hkv
          have hne : kv.1 ≠ a := by
            intro hc
            exact hnd'.1 (hc ▸ List.mem_map.2 ⟨kv, hkv, rfl⟩)
          by_cases hm : kv.1 ∈ result
          · rw [(contains_true_iff result kv.1).2 hm,
              (contains_true_iff (result ++ [a]) kv.1).2 (by simp [hm])]
          · rw [(contains_false_iff result kv.1).2 hm,
              (contains_false_iff (result ++ [a]) kv.1).2 (by simp [hm, hne])]
        rw [hga]
        rw [List.filter_cons, List.filter_cons, if_pos h1, if_neg h2]
        rw [hfeq]
        simp only [List.map_cons, List.sum_cons, Option.getD_some]
        omega
      · have htl : dictGet ((a, l) :: tl) current = dictGet tl current := by
          simp [dictGet, ha]
        rw [htl]
        have hcontains : ((result ++ [current]).contains (a, l).1) =
            (result.contains (a, l).1) := by
          show ((result ++ [current]).contains a) = (result.contains a)
          by_cases hm : a ∈ result
          · rw [(contains_true_iff result a).2 hm,
              (contains_true_iff (result ++ [current]) a).2 (by simp [hm])]
          · rw [(contains_false_iff result a).2 hm,
              (contains_false_iff (result ++ [current]) a).2 (by simp [hm, ha])]
        rw [List.filter_cons, List.filter_cons, hcontains]
        by_cases hm : a ∈ result
        · have hfalse : ¬ ((!(result.contains (a, l).1)) = true) := by
            show ¬ ((!(result.contains a)) = true)
            rw [(contains_true_iff result a).2 hm]
            simp
          rw [if_neg hfalse, if_neg hfalse]
          exact ih result current n hnd'.2 hcur
        · have htrue : (!(result.contains (a, l).1)) = true := by
            show (!(result.contains a)) = true
            rw [(contains_false_iff result a).2 hm]
            rfl
          rw [if_pos htrue, if_pos htrue]
          simp only [List.map_cons, List.sum_cons]
          have := ih result current n hnd'.2 hcur
          omega

/-- Removing a freshly processed step from the unprocessed set splits its
contribution to the in-degree of every node. -/
theorem inCount_split {α : Type} {p : PathPipeline α} (hwf : WF p)
    (result : List String) (current : String) (hcur : current ∉ result) (n : String) :
    inCount p result n = inCount p (result ++ [current]) n + (adj p current).count n :=
  sumCount_split p.graph result current n (graph_keys_nodup hwf) hcur

/-- Main invariant lemma of the Kahn worklist loop: with enough fuel, the
computed result extends `result` to a duplicate-free list of registered steps
whose incoming edges always come from strictly earlier entries, and every
registered step missing from the result has an in-neighbor that is also
missing. -/
theorem kahnLoop_master {α : Type} {p : PathPipeline α} (hwf : WF p) :
    ∀ (fuel : Nat) (deg : List (String × Int)) (queue result : List String),
    KInv p deg queue result →
    (stepIds p).length ≤ fuel + result.length →
    result <+: kahnLoop p.graph fuel deg queue result ∧
    (kahnLoop p.graph fuel deg queue result).Nodup ∧
    (∀ s ∈ kahnLoop p.graph fuel deg queue result, s ∈ stepIds p) ∧
    KPos p (kahnLoop p.graph fuel deg queue result) ∧
    (∀ u ∈ stepIds p, u ∉ kahnLoop p.graph fuel deg queue result →
      ∃ x, x ∈ stepIds p ∧ x ∉ kahnLoop p.graph fuel deg queue result ∧ Edge p x u) := by
  intro fuel
  induction fuel with
  | zero =>
      intro deg queue result hinv hfuel
      obtain ⟨hk1, hk2, hk3, hk4, hk5, hk6, hk7⟩ := hinv
      have hres : kahnLoop p.graph 0 deg queue result = result := rfl
      rw [hres]
      have hndres : result.Nodup := (List.nodup_append.1 hk2).1
      have hsub : ∀ s ∈ result, s ∈ stepIds p :=
        fun s hs => hk3 s (List.mem_append.2 (Or.inl hs))
      have hcover : ∀ u ∈ stepIds p, u ∈ result := by
        intro u hu
        have hsubF : result.toFinset ⊆ (stepIds p).toFinset := by
          intro x hx
          rw [List.mem_toFinset] at hx ⊢
          exact hsub x hx
        have hcard : (stepIds p).toFinset.card ≤ result.toFinset.card := by
          rw [List.toFinset_card_of_nodup hndres,
            List.toFinset_card_of_nodup (show (stepIds p).Nodup from hwf.1)]
          simpa using hfuel
        have := Finset.eq_of_subset_of_card_le hsubF hcard
        rw [← List.mem_toFinset, this, List.mem_toFinset]
        exact hu
      exact ⟨List.prefix_refl _, hndres, hsub, hk7,
        fun u hu hnr => absurd (hcover u hu) hnr⟩
  | succ fuel ih =>
      intro deg queue result hinv hfuel
      obtain ⟨hk1, hk2, hk3, hk4, hk5, hk6, hk7⟩ := hinv
      match queue with
      | [] =>
          have hres : kahnLoop p.graph (fuel + 1) deg [] result = result := rfl
          rw [hres]
          have hndres : result.Nodup := by simpa using hk2
          have hsub : ∀ s ∈ result, s ∈ stepIds p :=
            fun s hs => hk3 s (List.mem_append.2 (Or.inl hs))
          refine ⟨List.prefix_refl _, hndres, hsub, hk7, ?_⟩
          intro u hu hnr
          have hdegu : dictGetD deg u 0 ≠ 0 := hk5 u hu (by simpa using hnr)
          have hic : inCount p result u ≠ 0 := by
            intro hc
            rw [hk4 u hu, hc] at hdegu
            exact hdegu rfl
          rcases exists_pred_of_inCount_ne_zero hwf result u hic with ⟨x, hx1, hx2, hx3⟩
          exact ⟨x, hx1, hx2, hx3⟩
      | current :: rest =>
          have hstep : kahnLoop p.graph (fuel + 1) deg (current :: rest) result =
              kahnLoop p.graph fuel (kahnVisit deg rest (adj p current)).1
                (kahnVisit deg rest (adj p current)).2 (result ++ [current]) := rfl
          rw [hstep]
          have hcurq : current ∈ result ++ current :: rest := by simp
          have hcurstep : current ∈ stepIds p := hk3 current hcurq
          have hcurnotres : current ∉ result := by
            rw [List.nodup_append] at hk2
            intro hc
            exact hk2.2.2 hc (by simp)
          have hK' : KPos p (result ++ [current]) :=
            KPos_append hk7 (hk6 current (by simp))
          have hrearr : (result ++ [current]) ++ rest = result ++ current :: rest := by
            simp
          -- preconditions for the inner-loop invariant
          have hpre2 : ∀ n ∈ stepIds p,
              dictGetD deg n 0 =
                (inCount p (result ++ [current]) n : Int) + (adj p current).count n := by
            intro n hn
            rw [hk4 n hn, inCount_split hwf result current hcurnotres n]
            push_cast
            ring
          have hpre3 : ((result ++ [current]) ++ rest).Nodup := by
            rw [hrearr]; exact hk2
          have hpre4 : ∀ s ∈ (result ++ [current]) ++ rest, s ∈ stepIds p := by
            rw [hrearr]; exact hk3
          have hpre5 : ∀ n ∈ rest, inCount p (result ++ [current]) n = 0 ∧
              (adj p current).count n = 0 ∧
              ∀ x, Edge p x n → x ∈ result ++ [current] := by
            intro n hn
            have hsrc := hk6 n (List.mem_cons_of_mem _ hn)
            refine ⟨?_, ?_, fun x hx => List.mem_append.2 (Or.inl (hsrc x hx))⟩
            · exact (inCount_eq_zero_iff hwf _ _).2
                (fun x hx => List.mem_append.2 (Or.inl (hsrc x hx)))
            · rw [List.count_eq_zero]
              intro hmem
              exact hcurnotres (hsrc current hmem)
          have hpre6 : ∀ n ∈ stepIds p, n ∉ (result ++ [current]) ++ rest →
              (inCount p (result ++ [current]) n : Int) + (adj p current).count n ≠ 0 := by
            intro n hn hnin
            rw [hrearr] at hnin
            have := hk5 n hn hnin
            rw [hk4 n hn, inCount_split hwf result current hcurnotres n] at this
            intro hc
            apply this
            rw [← hc]
            push_cast
            ring
          have hpre7 : ∀ n ∈ adj p current, Edge p current n := fun n hn => hn
          have hconc := kahnVisit_inv hwf current result hK' (adj p current) deg rest
            hk1 hpre2 hpre3 hpre4 hpre5 hpre6 hpre7
          obtain ⟨hc1, hc2, hc3, hc4, hc5, hc6⟩ := hconc
          have hinv' : KInv p (kahnVisit deg rest (adj p current)).1
              (kahnVisit deg rest (adj p current)).2 (result ++ [current]) := by
            refine ⟨hc1, hc3, hc4, hc2, ?_, fun n hn => (hc5 n hn).2, hK'⟩
            intro n hn hnin
            rw [hc2 n hn]
            exact hc6 n hn hnin
          have hfuel' : (stepIds p).length ≤ fuel + (result ++ [current]).length := by
            rw [List.length_append]
            simpa [Nat.add_comm, Nat.add_assoc, Nat.add_left_comm] using hfuel
          have hres := ih (kahnVisit deg rest (adj p current)).1
            (kahnVisit deg rest (adj p current)).2 (result ++ [current]) hinv' hfuel'
          refine ⟨?_, hres.2.1, hres.2.2.1, hres.2.2.2.1, hres.2.2.2.2⟩
          exact List.IsPrefix.trans (List.prefix_append _ _) hres.1

theorem covers_of_nodup_subset_length {l keys : List String} (hnd : l.Nodup)
    (hknd : keys.Nodup) (hsub : ∀ s ∈ l, s ∈ keys) (hlen : keys.length ≤ l.length) :
    ∀ u ∈ keys, u ∈ l := by
  intro u hu
  have hsubF : l.toFinset ⊆ keys.toFinset := by
    intro x hx
    rw [List.mem_toFinset] at hx ⊢
    exact hsub x hx
  have hcard : keys.toFinset.card ≤ l.toFinset.card := by
    rw [List.toFinset_card_of_nodup hnd, List.toFinset_card_of_nodup hknd]
    exact hlen
  have := Finset.eq_of_subset_of_card_le hsubF hcard
  rw [← List.mem_toFinset, this, List.mem_toFinset]
  exact hu

theorem length_le_of_nodup_subset {l m : List String} (hnd : l.Nodup)
    (hsub : ∀ s ∈ l, s ∈ m) : l.length ≤ m.length := by
  calc l.length = l.toFinset.card := (List.toFinset_card_of_nodup hnd).symm
    _ ≤ m.toFinset.card := Finset.card_le_card (by
        intro x hx
        rw [List.mem_toFinset] at hx ⊢
        exact hsub x hx)
    _ ≤ m.length := m.toFinset_card_le

/-- A nonempty finite set in which every element has an in-neighbor inside the
set contains a cycle. -/
theorem cycle_of_preds {α : Type} {p : PathPipeline α} (U : List String) (u0 : String)
    (h0 : u0 ∈ U) (h : ∀ u ∈ U, ∃ x, x ∈ U ∧ Edge p x u) : ∃ a, Reach p a a := by
  classical
  let F : {x : String // x ∈ U} → {x : String // x ∈ U} := fun u =>
    ⟨Classical.choose (h u.1 u.2), (Classical.choose_spec (h u.1 u.2)).1⟩
  have hF : ∀ u, Edge p (F u).1 u.1 := fun u => (Classical.choose_spec (h u.1 u.2)).2
  let f : Nat → {x : String // x ∈ U} := fun n => F^[n] ⟨u0, h0⟩
  have hedge : ∀ n, Edge p (f (n + 1)).1 (f n).1 := by
    intro n
    have hit : f (n + 1) = F (f n) := Function.iterate_succ_apply' F n _
    rw [hit]
    exact hF (f n)
  have hchain : ∀ i j, i < j → Reach p (f j).1 (f i).1 := by
    intro i j hij
    induction j with
    | zero => omega
    | succ j ihj =>
        rcases Nat.lt_succ_iff_lt_or_eq.1 hij with h' | h'
        · exact reach_head (hedge j) (ihj h')
        · subst h'
          exact Reach.single (hedge i)
  have hmaps : ∀ n : Fin (U.length + 1), (fun m : Fin (U.length + 1) => (f m.1).1) n
      ∈ U.toFinset := fun n => List.mem_toFinset.2 (f n.1).2
  have hcard : U.toFinset.card < (Finset.univ : Finset (Fin (U.length + 1))).card := by
    rw [Finset.card_univ, Fintype.card_fin]
    exact Nat.lt_succ_of_le U.toFinset_card_le
  rcases Finset.exists_ne_map_eq_of_card_lt_of_maps_to hcard
      (fun n _ => hmaps n) with ⟨i, _, j, _, hij, heq⟩
  rcases Ne.lt_or_lt (show i.1 ≠ j.1 from fun hc => hij (Fin.ext hc)) with hlt | hlt
  · exact ⟨(f j.1).1, heq ▸ hchain i.1 j.1 hlt⟩
  · exact ⟨(f i.1).1, heq ▸ hchain j.1 i.1 hlt⟩

/-- Along `KPos`, reachability moves strictly towards earlier positions. -/
theorem reach_mem_pre {α : Type} {p : PathPipeline α} {R : List String} (hK : KPos p R) :
    ∀ {a x : String}, Reach p a x → ∀ pre post, R = pre ++ x :: post → a ∈ pre := by
  intro a x hr
  induction hr with
  | @single b e => exact fun pre post hdec => hK pre b post hdec a e
  | @tail b c hr e ih =>
      intro pre post hdec
      have hbpre : b ∈ pre := hK pre c post hdec b e
      rcases List.append_of_mem hbpre with ⟨pre1, post1, rfl⟩
      have hdec' : R = pre1 ++ b :: (post1 ++ c :: post) := by
        rw [hdec]; simp
      exact List.mem_append.2 (Or.inl (ih pre1 (post1 ++ c :: post) hdec'))

/-- A step lying on a cycle never enters a `KPos` duplicate-free result. -/
theorem cyclic_not_mem {α : Type} {p : PathPipeline α} {R : List String} (hK : KPos p R)
    (hnd : R.Nodup) {a : String} (hr : Reach p a a) : a ∉ R := by
  intro hmem
  rcases List.append_of_mem hmem with ⟨pre, post, rfl⟩
  have hpre := reach_mem_pre hK hr pre post rfl
  exact List.disjoint_of_nodup_append hnd hpre (by simp)

/-- The initial state of Kahn's algorithm satisfies the loop invariant. -/
theorem kahn_initial {α : Type} {p : PathPipeline α} (hwf : WF p) :
    KInv p (computeInDegrees p)
      (((computeInDegrees p).filter (fun kv => kv.2 = 0)).map Prod.fst) [] := by
  have hdknd : ((computeInDegrees p).map Prod.fst).Nodup := by
    rw [computeInDegrees_keys]
    exact hwf.1
  have hqsub : (((computeInDegrees p).filter (fun kv => kv.2 = 0)).map Prod.fst).Sublist
      ((computeInDegrees p).map Prod.fst) :=
    List.Sublist.map Prod.fst (List.filter_sublist _)
  refine ⟨computeInDegrees_keys, ?_, ?_, fun n hn => computeInDegrees_get n hn, ?_, ?_, ?_⟩
  · rw [List.nil_append]
    exact List.Nodup.sublist hqsub hdknd
  · intro s hs
    rw [List.nil_append] at hs
    rw [← computeInDegrees_keys]
    exact hqsub.subset hs
  · intro n hn hnin
    rw [List.nil_append] at hnin
    intro hz
    apply hnin
    have hsome : ∃ v, dictGet (computeInDegrees p) n = some v := by
      cases hg : dictGet (computeInDegrees p) n with
      | none =>
          rw [dictGet_eq_none_iff, computeInDegrees_keys] at hg
          exact absurd hn hg
      | some v => exact ⟨v, rfl⟩
    rcases hsome with ⟨v, hv⟩
    have hv0 : v = 0 := by
      rw [dictGetD, hv] at hz
      exact hz
    subst hv0
    exact List.mem_map.2 ⟨(n, 0), List.mem_filter.2 ⟨dictGet_mem _ _ _ hv, by simp⟩, rfl⟩
  · intro n hn x hx
    rcases List.mem_map.1 hn with ⟨kv, hkv, rfl⟩
    rw [List.mem_filter] at hkv
    have hz : kv.2 = 0 := by simpa using hkv.2
    have hget : dictGet (computeInDegrees p) kv.1 = some kv.2 :=
      dictGet_of_mem_nodup _ _ _ hkv.1 hdknd
    have hkstep : kv.1 ∈ stepIds p := by
      rw [← computeInDegrees_keys]
      exact List.mem_map.2 ⟨kv, hkv.1, rfl⟩
    have hic : (inCount p [] kv.1 : Int) = 0 := by
      rw [← computeInDegrees_get kv.1 hkstep, dictGetD, hget, hz]
      rfl
    have hic' : inCount p [] kv.1 = 0 := by exact_mod_cast hic
    exact (inCount_eq_zero_iff hwf [] kv.1).1 hic' x hx
  · intro pre x post hdec
    exact absurd hdec.symm (by simp)

/-- The result list computed inside `_topological_sort` and its properties. -/
theorem kahn_result_spec {α : Type} {p : PathPipeline α} (hwf : WF p) :
    (kahnLoop p.graph p.steps.length (computeInDegrees p)
        (((computeInDegrees p).filter (fun kv => kv.2 = 0)).map Prod.fst) []).Nodup ∧
    (∀ s ∈ kahnLoop p.graph p.steps.length (computeInDegrees p)
        (((computeInDegrees p).filter (fun kv => kv.2 = 0)).map Prod.fst) [],
      s ∈ stepIds p) ∧
    KPos p (kahnLoop p.graph p.steps.length (computeInDegrees p)
        (((computeInDegrees p).filter (fun kv => kv.2 = 0)).map Prod.fst) []) ∧
    (∀ u ∈ stepIds p, u ∉ kahnLoop p.graph p.steps.length (computeInDegrees p)
        (((computeInDegrees p).filter (fun kv => kv.2 = 0)).map Prod.fst) [] →
      ∃ x, x ∈ stepIds p ∧ x ∉ kahnLoop p.graph p.steps.length (computeInDegrees p)
        (((computeInDegrees p).filter (fun kv => kv.2 = 0)).map Prod.fst) [] ∧
      Edge p x u) := by
  have hfuel : (stepIds p).length ≤ p.steps.length + ([] : List String).length := by
    unfold stepIds
    simp
  have := kahnLoop_master hwf p.steps.length (computeInDegrees p)
    (((computeInDegrees p).filter (fun kv => kv.2 = 0)).map Prod.fst) []
    (kahn_initial hwf) hfuel
  exact ⟨this.2.1, this.2.2.1, this.2.2.2.1, this.2.2.2.2⟩

theorem toposort_ok_spec {α : Type} {p : PathPipeline α} (hwf : WF p) {l : List String}
    (hok : topologicalSort p = .ok l) :
    l.Nodup ∧ (∀ s ∈ l, s ∈ stepIds p) ∧ (∀ s ∈ stepIds p, s ∈ l) ∧ KPos p l := by
  obtain ⟨hnd, hsub, hK, hmiss⟩ := kahn_result_spec hwf
  set R := kahnLoop p.graph p.steps.length (computeInDegrees p)
    (((computeInDegrees p).filter (fun kv => kv.2 = 0)).map Prod.fst) [] with hR
  have hdef : topologicalSort p =
      (if R.length = p.steps.length then .ok R
       else .error ((p.steps.map Prod.fst).filter (fun s => (R.contains s) = false))) := rfl
  rw [hdef] at hok
  by_cases hlen : R.length = p.steps.length
  · rw [if_pos hlen] at hok
    have hlR : l = R := by
      injection hok with h
      exact h.symm
    subst hlR
    refine ⟨hnd, hsub, ?_, hK⟩
    apply covers_of_nodup_subset_length hnd hwf.1 hsub
    rw [hlen]
    simp [stepIds]
  · rw [if_neg hlen] at hok
    exact absurd hok (by simp)

theorem toposort_err_spec {α : Type} {p : PathPipeline α} (hwf : WF p) {un : List String}
    (herr : topologicalSort p = .error un) :
    Cyclic p ∧ (∀ a, Reach p a a → a ∈ un) := by
  obtain ⟨hnd, hsub, hK, hmiss⟩ := kahn_result_spec hwf
  set R := kahnLoop p.graph p.steps.length (computeInDegrees p)
    (((computeInDegrees p).filter (fun kv => kv.2 = 0)).map Prod.fst) [] with hR
  have hdef : topologicalSort p =
      (if R.length = p.steps.length then .ok R
       else .error ((p.steps.map Prod.fst).filter (fun s => (R.contains s) = false))) := rfl
  rw [hdef] at herr
  by_cases hlen : R.length = p.steps.length
  · rw [if_pos hlen] at herr
    exact absurd herr (by simp)
  · rw [if_neg hlen] at herr
    have hun : un = (p.steps.map Prod.fst).filter (fun s => (R.contains s) = false) := by
      injection herr with h
      exact h.symm
    have hmemun : ∀ a, a ∈ stepIds p → a ∉ R → a ∈ un := by
      intro a ha hnr
      rw [hun, List.mem_filter]
      refine ⟨ha, ?_⟩
      simp only [decide_eq_true_eq]
      exact (contains_false_iff R a).2 hnr
    have hmiss' : ∃ u, u ∈ stepIds p ∧ u ∉ R := by
      by_contra hc
      push_neg at hc
      apply hlen
      have hle : R.length ≤ (stepIds p).length := length_le_of_nodup_subset hnd hsub
      have hge : (stepIds p).length ≤ R.length := length_le_of_nodup_subset hwf.1 hc
      have : (stepIds p).length = p.steps.length := by unfold stepIds; simp
      omega
    rcases hmiss' with ⟨u, hu1, hu2⟩
    have hUpred : ∀ w ∈ (stepIds p).filter (fun s => !(R.contains s)), ∃ x,
        x ∈ (stepIds p).filter (fun s => !(R.contains s)) ∧ Edge p x w := by
      intro w hw
      rw [List.mem_filter] at hw
      have hw2 : w ∉ R := (contains_false_iff R w).1 (by simpa using hw.2)
      rcases hmiss w hw.1 hw2 with ⟨x, hx1, hx2, hx3⟩
      refine ⟨x, List.mem_filter.2 ⟨hx1, ?_⟩, hx3⟩
      rw [(contains_false_iff R x).2 hx2]
      rfl
    have hcyc : ∃ a, Reach p a a := by
      apply cycle_of_preds ((stepIds p).filter (fun s => !(R.contains s))) u
        (List.mem_filter.2 ⟨hu1, by rw [(contains_false_iff R u).2 hu2]; rfl⟩) hUpred
    refine ⟨hcyc, ?_⟩
    intro a har
    exact hmemun a (reach_source_mem hwf har) (cyclic_not_mem hK hnd har)

theorem toposort_ok_iff_not_cyclic {α : Type} {p : PathPipeline α} (hwf : WF p) :
    (∃ l, topologicalSort p = .ok l) ↔ ¬ Cyclic p := by
  constructor
  · rintro ⟨l, hok⟩ ⟨a, har⟩
    obtain ⟨hnd, _, hcov, hK⟩ := toposort_ok_spec hwf hok
    exact cyclic_not_mem hK hnd har (hcov a (reach_source_mem hwf har))
  · intro hnc
    cases hts : topologicalSort p with
    | ok l => exact ⟨l, rfl⟩
    | error un => exact absurd (toposort_err_spec hwf hts).1 hnc

/-- Every connection's source appears strictly before its target in a
successfully computed execution order. -/
theorem toposort_connection_order {α : Type} {p : PathPipeline α} (hwf : WF p)
    {l : List String} (hok : topologicalSort p = .ok l) :
    ∀ c ∈ p.connections, ∃ l₁ l₂ l₃,
      l = l₁ ++ c.from_step :: l₂ ++ c.to_step :: l₃ := by
  intro c hc
  obtain ⟨hnd, hsub, hcov, hK⟩ := toposort_ok_spec hwf hok
  obtain ⟨hce, hcf, hct⟩ := hwf.2.2.2 c hc
  have hedge : Edge p c.from_step c.to_step := hce
  have htmem : c.to_step ∈ l := hcov _ hct
  rcases List.append_of_mem htmem with ⟨pre, post, rfl⟩
  have hfpre : c.from_step ∈ pre := hK pre _ post rfl _ hedge
  rcases List.append_of_mem hfpre with ⟨l₁, l₂, rfl⟩
  exact ⟨l₁, l₂, post, by simp⟩

end KahnLemmas

/-!  Correctness of the depth-first cycle detection. -/

section DfsLemmas

variable {α : Type} {p : PathPipeline α}

theorem filter_sublist_of_imp {γ : Type} (l : List γ) (f g : γ → Bool)
    (h : ∀ x ∈ l, f x = true → g x = true) : List.Sublist (l.filter f) (l.filter g) := by
  induction l with
  | nil => simp
  | cons hd tl ih =>
      have ih' := ih (fun x hx => h x (List.mem_cons_of_mem _ hx))
      rw [List.filter_cons, List.filter_cons]
      by_cases hf : f hd = true
      · rw [if_pos hf, if_pos (h hd (List.mem_cons_self _ _) hf)]
        exact ih'.cons₂ hd
      · rw [if_neg hf]
        by_cases hg : g hd = true
        · rw [if_pos hg]
          exact ih'.cons hd
        · rw [if_neg hg]
          exact ih'

theorem unvisCount_pos {vis : List String} {node : String} (hn : node ∈ stepIds p)
    (hnv : node ∉ vis) : 0 < unvisCount p vis := by
  unfold unvisCount
  have : node ∈ (stepIds p).filter (fun s => !(vis.contains s)) :=
    List.mem_filter.2 ⟨hn, by rw [(contains_false_iff vis node).2 hnv]; rfl⟩
  exact List.length_pos.2 (List.ne_nil_of_mem this)

theorem unvisCount_mono {vis vis' : List String} (h : ∀ v ∈ vis, v ∈ vis') :
    unvisCount p vis' ≤ unvisCount p vis := by
  unfold unvisCount
  apply List.Sublist.length_le
  apply filter_sublist_of_imp
  intro x _ hx
  rw [(contains_false_iff vis x).2]
  · rfl
  · intro hmem
    have : vis'.contains x = true := (contains_true_iff vis' x).2 (h x hmem)
    rw [this] at hx
    simp at hx

theorem unvisCount_strict {vis : List String} {node : String} (hn : node ∈ stepIds p)
    (hnv : node ∉ vis) : unvisCount p (vis ++ [node]) < unvisCount p vis := by
  unfold unvisCount
  have hsub : List.Sublist ((stepIds p).filter (fun s => !((vis ++ [node]).contains s)))
      (((stepIds p).filter (fun s => !(vis.contains s))).filter (fun s => !(s == node))) := by
    rw [List.filter_filter]
    apply filter_sublist_of_imp
    intro x _ hx
    have hx' : x ∉ vis ++ [node] := by
      intro hmem
      rw [(contains_true_iff _ x).2 hmem] at hx
      simp at hx
    have hx1 : x ∉ vis := fun h => hx' (List.mem_append.2 (Or.inl h))
    have hx2 : x ≠ node := fun h => hx' (List.mem_append.2 (Or.inr (by simp [h])))
    rw [(contains_false_iff vis x).2 hx1]
    simp [hx2]
  apply Nat.lt_of_le_of_lt (List.Sublist.length_le hsub)
  have hmemf : node ∈ (stepIds p).filter (fun s => !(vis.contains s)) :=
    List.mem_filter.2 ⟨hn, by rw [(contains_false_iff vis node).2 hnv]; rfl⟩
  rw [List.length_filter_lt_length_iff_exists]
  exact ⟨node, hmemf, by simp⟩

/-- Once the scan has found a cycle, the remaining neighbors are skipped. -/
theorem dfsFold_true (g : List (String × List String)) (fuel : Nat) :
    ∀ (ns : List String) (acc : Bool × List String × List String), acc.1 = true →
    dfsFold g fuel ns acc = acc := by
  intro ns
  induction ns with
  | nil => intro acc _; rfl
  | cons n rest ih =>
      intro acc hacc
      unfold dfsFold
      rw [List.foldl_cons]
      rw [show (if acc.1 then acc
        else if acc.2.1.contains n then
          (if acc.2.2.contains n then (true, acc.2.1, acc.2.2) else acc)
        else dfsVisit g fuel n acc.2.1 acc.2.2) = acc from by rw [hacc]; simp]
      exact ih acc hacc

/-- Unfolding of one `dfsVisit` activation in terms of `dfsFold`. -/
theorem dfsVisit_succ (g : List (String × List String)) (fuel : Nat) (node : String)
    (vis stk : List String) :
    dfsVisit g (fuel + 1) node vis stk =
      (if (dfsFold g fuel ((dictGet g node).getD [])
            (false, vis ++ [node], stk ++ [node])).1 then
        dfsFold g fuel ((dictGet g node).getD []) (false, vis ++ [node], stk ++ [node])
       else
        (false,
          (dfsFold g fuel ((dictGet g node).getD [])
            (false, vis ++ [node], stk ++ [node])).2.1,
          ((dfsFold g fuel ((dictGet g node).getD [])
            (false, vis ++ [node], stk ++ [node])).2.2).filter (fun x => x ≠ node))) := rfl

/-- One step of `dfsFold`. -/
theorem dfsFold_cons (g : List (String × List String)) (fuel : Nat) (n : String)
    (rest : List String) (acc : Bool × List String × List String) :
    dfsFold g fuel (n :: rest) acc =
      dfsFold g fuel rest
        (if acc.1 then acc
         else if acc.2.1.contains n then
           (if acc.2.2.contains n then (true, acc.2.1, acc.2.2) else acc)
         else dfsVisit g fuel n acc.2.1 acc.2.2) := rfl

/-- From any member of an edge chain there is a reach (or equality) to the
chain's last element. -/
theorem chain'_reach_getLast :
    ∀ (l : List String) (n : String), List.Chain' (Edge p) l → n ∈ l →
    ∀ (h : l ≠ []), n = l.getLast h ∨ Reach p n (l.getLast h) := by
  intro l
  induction l with
  | nil => intro n _ hn; simp at hn
  | cons a t ih =>
      intro n hch hn hne
      match t, hn with
      | [], hn =>
          left
          simp at hn
          simp [hn]
      | b :: t', hn =>
          have hch' : List.Chain' (Edge p) (b :: t') := hch.tail
          have hedge : Edge p a b := List.chain'_cons.1 hch |>.1
          have hlast : (a :: b :: t').getLast hne = (b :: t').getLast (by simp) := by
            rw [List.getLast_cons]
          rcases List.mem_cons.1 hn with rfl | hn'
          · rw [hlast]
            rcases ih b hch' (by simp) (by simp) with heq | hr
            · right
              rw [← heq]
              exact Reach.single hedge
            · right
              exact reach_head hedge hr
          · rw [hlast]
            exact ih n hch' hn' (by simp)

/-- Finding a visited neighbor on the recursion stack certifies a cycle: the
stack is an edge chain ending at the step being expanded. -/
theorem cycle_from_stack {stk : List String} {node n : String}
    (hch : List.Chain' (Edge p) (stk ++ [node])) (hn : n ∈ stk ++ [node])
    (he : Edge p node n) : Reach p n n := by
  have hne : stk ++ [node] ≠ [] := by simp
  have hlast : (stk ++ [node]).getLast hne = node := by
    simp
  rcases chain'_reach_getLast (stk ++ [node]) n hch hn hne with heq | hr
  · rw [hlast] at heq
    subst heq
    exact Reach.single he
  · rw [hlast] at hr
    exact Reach.tail hr he

/-- Along a finish order, reachability decreases the index strictly. -/
theorem ford_reach {F : List String} (hF : FOrd p F) :
    ∀ {a b : String}, Reach p a b → a ∈ F → b ∈ F ∧ F.indexOf b < F.indexOf a := by
  intro a b hr
  induction hr with
  | @single b e => intro ha; exact hF.2 a ha b e
  | @tail b c hr e ih =>
      intro ha
      have hb := ih ha
      have hc := hF.2 b hb.1 c e
      exact ⟨hc.1, Nat.lt_trans hc.2 hb.2⟩

/-- A finish order covering the whole graph rules out cycles. -/
theorem not_cyclic_of_ford {F : List String} (hwf : WF p) (hF : FOrd p F)
    (hcov : ∀ s ∈ stepIds p, s ∈ F) : ¬ Cyclic p := by
  rintro ⟨a, hr⟩
  have ha : a ∈ F := hcov a (reach_source_mem hwf hr)
  have := ford_reach hF hr ha
  omega

/-- Pushing an unvisited step onto the stack (and into the visited set) keeps
the finish order unchanged. -/
theorem finpack_push {vis stk : List String} {node : String} (hp : FinPack p vis stk)
    (hnv : node ∉ vis) : FinPack p (vis ++ [node]) (stk ++ [node]) := by
  rcases hp with ⟨F, hset, hord⟩
  refine ⟨F, ?_, hord⟩
  intro x
  rw [hset]
  constructor
  · rintro ⟨hxv, hxs⟩
    have hxn : x ≠ node := fun hc => hnv (hc ▸ hxv)
    refine ⟨List.mem_append.2 (Or.inl hxv), ?_⟩
    intro hc
    rcases List.mem_append.1 hc with h | h
    · exact hxs h
    · rw [List.mem_singleton] at h
      exact hxn h
  · rintro ⟨hxv, hxs⟩
    have hxn : x ≠ node := by
      intro hc
      exact hxs (List.mem_append.2 (Or.inr (by simp [hc])))
    have hxv' : x ∈ vis := by
      rcases List.mem_append.1 hxv with h | h
      · exact h
      · rw [List.mem_singleton] at h
        exact absurd h hxn
    exact ⟨hxv', fun hc => hxs (List.mem_append.2 (Or.inl hc))⟩

/-- Popping a fully expanded step appends it to the finish order: every one of
its outgoing edges lands among the earlier finished steps. -/
theorem finpack_pop {visF stk : List String} {node : String}
    (hp : FinPack p visF (stk ++ [node])) (hnvF : node ∈ visF) (hns : node ∉ stk)
    (hadj : ∀ n, Edge p node n → n ∈ visF ∧ n ∉ stk ++ [node]) :
    FinPack p visF stk := by
  rcases hp with ⟨F, hset, hnd, hord⟩
  have hnodeF : node ∉ F := by
    intro hc
    exact ((hset node).1 hc).2 (List.mem_append.2 (Or.inr (by simp)))
  refine ⟨F ++ [node], ?_, ?_, ?_⟩
  · intro x
    constructor
    · intro hx
      rcases List.mem_append.1 hx with h | h
      · have := (hset x).1 h
        exact ⟨this.1, fun hc => this.2 (List.mem_append.2 (Or.inl hc))⟩
      · rw [List.mem_singleton] at h
        subst h
        exact ⟨hnvF, hns⟩
    · rintro ⟨hxv, hxs⟩
      by_cases hxn : x = node
      · subst hxn
        exact List.mem_append.2 (Or.inr (by simp))
      · refine List.mem_append.2 (Or.inl ((hset x).2 ⟨hxv, ?_⟩))
        intro hc
        rcases List.mem_append.1 hc with h | h
        · exact hxs h
        · rw [List.mem_singleton] at h
          exact hxn h
  · rw [List.nodup_append]
    exact ⟨hnd, List.nodup_singleton _, fun a ha hb => hnodeF (by
      rw [List.mem_singleton] at hb
      rw [← hb]
      exact ha)⟩
  · intro x hx y he
    rcases List.mem_append.1 hx with h | h
    · have := hord x h y he
      refine ⟨List.mem_append.2 (Or.inl this.1), ?_⟩
      rw [List.indexOf_append_of_mem this.1, List.indexOf_append_of_mem h]
      exact this.2
    · rw [List.mem_singleton] at h
      subst h
      have hy := hadj y he
      have hyF : y ∈ F := (hset y).2 hy
      refine ⟨List.mem_append.2 (Or.inl hyF), ?_⟩
      rw [List.indexOf_append_of_mem hyF, List.indexOf_append_of_not_mem hnodeF]
      have h1 : List.indexOf y F < F.length := List.indexOf_lt_length.2 hyF
      have h2 : List.indexOf x ([x] : List String) = 0 := List.indexOf_cons_self x []
      omega

/-- Invariant of the neighbor scan inside one `dfsVisit` activation, assuming
the correctness statement (`IH`) for recursive calls at the smaller fuel. -/
theorem dfsScan_inv (hwf : WF p) (fuel : Nat)
    (IH : ∀ node vis stk, node ∈ stepIds p → node ∉ vis → (∀ v ∈ vis, v ∈ stepIds p) →
      (∀ s ∈ stk, s ∈ vis) → List.Chain' (Edge p) (stk ++ [node]) → FinPack p vis stk →
      unvisCount p vis ≤ fuel →
      ((dfsVisit p.graph fuel node vis stk).1 = true → Cyclic p) ∧
      (∀ v ∈ vis, v ∈ (dfsVisit p.graph fuel node vis stk).2.1) ∧
      node ∈ (dfsVisit p.graph fuel node vis stk).2.1 ∧
      (∀ v ∈ (dfsVisit p.graph fuel node vis stk).2.1, v ∈ stepIds p) ∧
      ((dfsVisit p.graph fuel node vis stk).1 = false →
        (dfsVisit p.graph fuel node vis stk).2.2 = stk ∧
        FinPack p (dfsVisit p.graph fuel node vis stk).2.1 stk))
    (node : String) (stk : List String)
    (hch : List.Chain' (Edge p) (stk ++ [node])) :
    ∀ (ns : List String) (visc : List String),
    (∀ n ∈ ns, Edge p node n) →
    (∀ v ∈ visc, v ∈ stepIds p) →
    (∀ s ∈ stk ++ [node], s ∈ visc) →
    FinPack p visc (stk ++ [node]) →
    unvisCount p visc ≤ fuel →
    ((dfsFold p.graph fuel ns (false, visc, stk ++ [node])).1 = true → Cyclic p) ∧
    (∀ v ∈ visc, v ∈ (dfsFold p.graph fuel ns (false, visc, stk ++ [node])).2.1) ∧
    (∀ v ∈ (dfsFold p.graph fuel ns (false, visc, stk ++ [node])).2.1, v ∈ stepIds p) ∧
    ((dfsFold p.graph fuel ns (false, visc, stk ++ [node])).1 = false →
      (dfsFold p.graph fuel ns (false, visc, stk ++ [node])).2.2 = stk ++ [node] ∧
      FinPack p (dfsFold p.graph fuel ns (false, visc, stk ++ [node])).2.1 (stk ++ [node]) ∧
      (∀ n ∈ ns, n ∈ (dfsFold p.graph fuel ns (false, visc, stk ++ [node])).2.1 ∧
        n ∉ stk ++ [node])) := by
  intro ns
  induction ns with
  | nil =>
      intro visc _ hkeys _ hpack _
      exact ⟨by intro h; exact absurd h (by simp [dfsFold]), fun v hv => hv, hkeys,
        fun _ => ⟨rfl, hpack, by simp⟩⟩
  | cons n rest ih =>
      intro visc hns hkeys hstk hpack hfuel
      rw [dfsFold_cons]
      rw [show (if (false, visc, stk ++ [node]).1 then (false, visc, stk ++ [node])
          else if (false, visc, stk ++ [node]).2.1.contains n then
            (if (false, visc, stk ++ [node]).2.2.contains n then
              (true, (false, visc, stk ++ [node]).2.1, (false, visc, stk ++ [node]).2.2)
             else (false, visc, stk ++ [node]))
          else dfsVisit p.graph fuel n (false, visc, stk ++ [node]).2.1
            (false, visc, stk ++ [node]).2.2) =
          (if visc.contains n then
            (if (stk ++ [node]).contains n then (true, visc, stk ++ [node])
             else (false, visc, stk ++ [node]))
          else dfsVisit p.graph fuel n visc (stk ++ [node])) from by simp]
      by_cases hvc : n ∈ visc
      · rw [if_pos ((contains_true_iff visc n).2 hvc)]
        by_cases hsc : n ∈ stk ++ [node]
        · rw [if_pos ((contains_true_iff (stk ++ [node]) n).2 hsc)]
          rw [dfsFold_true p.graph fuel rest (true, visc, stk ++ [node]) rfl]
          refine ⟨fun _ => ?_, fun v hv => hv, hkeys, fun hc => absurd hc (by simp)⟩
          exact ⟨n, cycle_from_stack hch hsc (hns n (List.mem_cons_self _ _))⟩
        · rw [if_neg (by rw [(contains_false_iff (stk ++ [node]) n).2 hsc]; simp)]
          have hrest := ih visc (fun m hm => hns m (List.mem_cons_of_mem _ hm))
            hkeys hstk hpack hfuel
          refine ⟨hrest.1, hrest.2.1, hrest.2.2.1, ?_⟩
          intro hfalse
          obtain ⟨hA, hB, hC⟩ := hrest.2.2.2 hfalse
          refine ⟨hA, hB, ?_⟩
          intro m hm
          rcases List.mem_cons.1 hm with rfl | hm'
          · exact ⟨hrest.2.1 m hvc, hsc⟩
          · exact hC m hm'
      · rw [if_neg (by rw [(contains_false_iff visc n).2 hvc]; simp)]
        have hnstep : n ∈ stepIds p := edge_target_mem hwf (hns n (List.mem_cons_self _ _))
        have hch' : List.Chain' (Edge p) ((stk ++ [node]) ++ [n]) := by
          apply List.Chain'.append hch (List.chain'_singleton n)
          intro x hx y hy
          rw [List.getLast?_concat] at hx
          rw [List.head?_cons] at hy
          rw [Option.mem_def] at hx hy
          have hx' : x = node := by injection hx with h; exact h.symm
          have hy' : y = n := by injection hy with h; exact h.symm
          rw [hx', hy']
          exact hns n (List.mem_cons_self _ _)
        have hsub := IH n visc (stk ++ [node]) hnstep hvc hkeys hstk hch' hpack hfuel
        rcases hDeq : dfsVisit p.graph fuel n visc (stk ++ [node]) with ⟨b, vis2, stk2⟩
        rw [hDeq] at hsub
        cases b with
        | true =>
            rw [dfsFold_true p.graph fuel rest (true, vis2, stk2) rfl]
            exact ⟨fun _ => hsub.1 rfl, fun v hv => hsub.2.1 v hv, hsub.2.2.2.1,
              fun hc => absurd hc (by simp)⟩
        | false =>
            obtain ⟨hrestore, hpack'⟩ := hsub.2.2.2.2 rfl
            have hrestore' : stk2 = stk ++ [node] := hrestore
            subst hrestore'
            have hmono : ∀ v ∈ visc, v ∈ vis2 := hsub.2.1
            have hrest := ih vis2 (fun m hm => hns m (List.mem_cons_of_mem _ hm))
              hsub.2.2.2.1 (fun s hs => hmono s (hstk s hs)) hpack'
              (le_trans (unvisCount_mono hmono) hfuel)
            refine ⟨hrest.1, fun v hv => hrest.2.1 v (hmono v hv), hrest.2.2.1, ?_⟩
            intro hfalse
            obtain ⟨hA, hB, hC⟩ := hrest.2.2.2 hfalse
            refine ⟨hA, hB, ?_⟩
            intro m hm
            rcases List.mem_cons.1 hm with rfl | hm'
            · exact ⟨hrest.2.1 m hsub.2.2.1, fun hc => hvc (hstk m hc)⟩
            · exact hC m hm'

theorem stack_filter_pop {stk : List String} {node : String} (h : node ∉ stk) :
    (stk ++ [node]).filter (fun x => x ≠ node) = stk := by
  rw [List.filter_append]
  have h1 : stk.filter (fun x => x ≠ node) = stk := by
    apply List.filter_eq_self.2
    intro x hx
    exact decide_eq_true (fun hc => h (hc ▸ hx))
  have h2 : ([node] : List String).filter (fun x => x ≠ node) = [] := by
    simp
  rw [h1, h2, List.append_nil]

/-- Full correctness of one `dfsVisit` activation: a `True` result certifies a
cycle, the visited set grows as described, and a `False` result restores the
stack and extends the finish order. -/
theorem dfs_main (hwf : WF p) :
    ∀ (fuel : Nat) (node : String) (vis stk : List String),
    node ∈ stepIds p → node ∉ vis → (∀ v ∈ vis, v ∈ stepIds p) →
    (∀ s ∈ stk, s ∈ vis) → List.Chain' (Edge p) (stk ++ [node]) → FinPack p vis stk →
    unvisCount p vis ≤ fuel →
    ((dfsVisit p.graph fuel node vis stk).1 = true → Cyclic p) ∧
    (∀ v ∈ vis, v ∈ (dfsVisit p.graph fuel node vis stk).2.1) ∧
    node ∈ (dfsVisit p.graph fuel node vis stk).2.1 ∧
    (∀ v ∈ (dfsVisit p.graph fuel node vis stk).2.1, v ∈ stepIds p) ∧
    ((dfsVisit p.graph fuel node vis stk).1 = false →
      (dfsVisit p.graph fuel node vis stk).2.2 = stk ∧
      FinPack p (dfsVisit p.graph fuel node vis stk).2.1 stk) := by
  intro fuel
  induction fuel with
  | zero =>
      intro node vis stk hn hnv _ _ _ _ hfuel
      have := unvisCount_pos (p := p) hn hnv
      omega
  | succ fuel ih =>
      intro node vis stk hn hnv hkeys hstk hch hpack hfuel
      have hnstk : node ∉ stk := fun hc => hnv (hstk node hc)
      rw [dfsVisit_succ]
      have hns : ∀ n ∈ (dictGet p.graph node).getD [], Edge p node n := fun n hn => hn
      have hkeys0 : ∀ v ∈ vis ++ [node], v ∈ stepIds p := by
        intro v hv
        rcases List.mem_append.1 hv with h | h
        · exact hkeys v h
        · rw [List.mem_singleton] at h
          exact h ▸ hn
      have hstk0 : ∀ s ∈ stk ++ [node], s ∈ vis ++ [node] := by
        intro s hs
        rcases List.mem_append.1 hs with h | h
        · exact List.mem_append.2 (Or.inl (hstk s h))
        · exact List.mem_append.2 (Or.inr h)
      have hfuel0 : unvisCount p (vis ++ [node]) ≤ fuel := by
        have := unvisCount_strict (p := p) hn hnv
        omega
      have scan := dfsScan_inv hwf fuel ih node stk hch
        ((dictGet p.graph node).getD []) (vis ++ [node]) hns hkeys0 hstk0
        (finpack_push hpack hnv) hfuel0
      rcases hreq : dfsFold p.graph fuel ((dictGet p.graph node).getD [])
          (false, vis ++ [node], stk ++ [node]) with ⟨b, v2, s2⟩
      rw [hreq] at scan
      have hvmono : ∀ v ∈ vis, v ∈ v2 :=
        fun v hv => scan.2.1 v (List.mem_append.2 (Or.inl hv))
      have hnodev2 : node ∈ v2 := scan.2.1 node (List.mem_append.2 (Or.inr (by simp)))
      cases b with
      | true =>
          rw [if_pos rfl]
          exact ⟨fun _ => scan.1 rfl, hvmono, hnodev2, scan.2.2.1,
            fun hc => absurd hc (by simp)⟩
      | false =>
          rw [if_neg (by simp)]
          obtain ⟨hA, hB, hC⟩ := scan.2.2.2 rfl
          have hA' : s2 = stk ++ [node] := hA
          subst hA'
          refine ⟨fun hc => absurd hc (by simp), hvmono, hnodev2, scan.2.2.1, ?_⟩
          intro _
          constructor
          · show ((stk ++ [node]).filter (fun x => x ≠ node)) = stk
            exact stack_filter_pop hnstk
          · show FinPack p v2 stk
            apply finpack_pop hB hnodev2 hnstk
            intro n he
            exact hC n he

/-- Invariant of the outer loop of `_has_cycle` over the registered steps. -/
theorem hasCycleScan_spec (hwf : WF p) :
    ∀ (ids : List String) (vis : List String),
    (∀ i ∈ ids, i ∈ stepIds p) →
    (∀ v ∈ vis, v ∈ stepIds p) →
    FinPack p vis [] →
    (hasCycleScan p.graph (p.steps.length + 1) ids vis [] = true → Cyclic p) ∧
    (hasCycleScan p.graph (p.steps.length + 1) ids vis [] = false →
      ∃ vis', (∀ i ∈ ids, i ∈ vis') ∧ (∀ v ∈ vis, v ∈ vis') ∧
        (∀ v ∈ vis', v ∈ stepIds p) ∧ FinPack p vis' []) := by
  intro ids
  induction ids with
  | nil =>
      intro vis _ hkeys hpack
      refine ⟨fun hc => absurd hc (by simp [hasCycleScan]), fun _ => ?_⟩
      exact ⟨vis, by simp, fun v hv => hv, hkeys, hpack⟩
  | cons s rest ih =>
      intro vis hids hkeys hpack
      by_cases hsv : s ∈ vis
      · have hstep : hasCycleScan p.graph (p.steps.length + 1) (s :: rest) vis [] =
            hasCycleScan p.graph (p.steps.length + 1) rest vis [] := by
          show (if vis.contains s then _ else _) = _
          rw [if_pos ((contains_true_iff vis s).2 hsv)]
        rw [hstep]
        have hrest := ih vis (fun i hi => hids i (List.mem_cons_of_mem _ hi)) hkeys hpack
        refine ⟨hrest.1, fun hfalse => ?_⟩
        rcases hrest.2 hfalse with ⟨vis', hcov, hmono, hk, hp⟩
        exact ⟨vis', fun i hi => by
          rcases List.mem_cons.1 hi with rfl | hi'
          · exact hmono i hsv
          · exact hcov i hi', hmono, hk, hp⟩
      · have hsstep : s ∈ stepIds p := hids s (List.mem_cons_self _ _)
        have hfuel : unvisCount p vis ≤ p.steps.length + 1 := by
          have h1 : unvisCount p vis ≤ (stepIds p).length := List.length_filter_le _ _
          have h2 : (stepIds p).length = p.steps.length := by simp [stepIds]
          omega
        have hdfs := dfs_main hwf (p.steps.length + 1) s vis [] hsstep hsv hkeys
          (by simp) (by simp) hpack hfuel
        have hstep : hasCycleScan p.graph (p.steps.length + 1) (s :: rest) vis [] =
            (if (dfsVisit p.graph (p.steps.length + 1) s vis []).1 then true
             else hasCycleScan p.graph (p.steps.length + 1) rest
               (dfsVisit p.graph (p.steps.length + 1) s vis []).2.1
               (dfsVisit p.graph (p.steps.length + 1) s vis []).2.2) := by
          show (if vis.contains s then _ else _) = _
          rw [if_neg (by rw [(contains_false_iff vis s).2 hsv]; simp)]
        rw [hstep]
        rcases hreq : dfsVisit p.graph (p.steps.length + 1) s vis [] with ⟨b, v2, s2⟩
        rw [hreq] at hdfs
        cases b with
        | true =>
            rw [if_pos rfl]
            exact ⟨fun _ => hdfs.1 rfl, fun hc => absurd hc (by simp)⟩
        | false =>
            rw [if_neg (by simp)]
            obtain ⟨hA, hB⟩ := hdfs.2.2.2.2 rfl
            have hA' : s2 = [] := hA
            subst hA'
            have hrest := ih v2 (fun i hi => hids i (List.mem_cons_of_mem _ hi))
              hdfs.2.2.2.1 hB
            refine ⟨hrest.1, fun hfalse => ?_⟩
            rcases hrest.2 hfalse with ⟨vis', hcov, hmono, hk, hp⟩
            refine ⟨vis', ?_, fun v hv => hmono v (hdfs.2.1 v hv), hk, hp⟩
            intro i hi
            rcases List.mem_cons.1 hi with rfl | hi'
            · exact hmono i hdfs.2.2.1
            · exact hcov i hi'

/-- `_has_cycle` decides the existence of a cycle in the derived adjacency
relation. -/
theorem hasCycle_iff_cyclic (hwf : WF p) : hasCycle p = true ↔ Cyclic p := by
  have hinit : FinPack p [] [] := ⟨[], by simp, List.nodup_nil, by simp⟩
  have hspec := hasCycleScan_spec hwf (stepIds p) [] (fun i hi => hi) (by simp) hinit
  constructor
  · intro h
    exact hspec.1 h
  · intro hcyc
    cases hval : hasCycle p with
    | true => rfl
    | false =>
        exfalso
        unfold hasCycle at hval
        rcases hspec.2 hval with ⟨vis', hcov, _, _, F, hset, hord⟩
        apply not_cyclic_of_ford hwf hord _ hcyc
        intro x hx
        rw [hset]
        exact ⟨hcov x hx, by simp⟩

theorem hasCycle_false_iff (hwf : WF p) : hasCycle p = false ↔ ¬ Cyclic p := by
  rw [← hasCycle_iff_cyclic hwf]
  cases hasCycle p <;> simp

end DfsLemmas

/-!  The channel router and the execution loop of `run`. -/

section ExecLemmas

variable {α : Type} {p : PathPipeline α}

theorem cons_getLast?_or {γ : Type} (L : List γ) (v : γ) (X : Option γ) :
    ((v :: L).getLast?).or X = (L.getLast?).or (some v) := by
  cases L with
  | nil => rfl
  | cons b t =>
      rw [List.getLast?_cons_cons]
      cases hgl : (b :: t).getLast? with
      | none =>
          rw [List.getLast?_eq_none_iff] at hgl
          exact absurd hgl (by simp)
      | some y => simp

theorem routeStep_not_target {step_id : String}
    {step_outputs : List (String × List (String × List (String × α)))}
    {inputs : List (String × List (String × α))} {conn : Connection}
    (hto : ¬ conn.to_step = step_id) :
    routeStep step_id step_outputs inputs conn = inputs := by
  unfold routeStep
  rw [if_neg hto]

theorem routeStep_no_source {step_id : String}
    {step_outputs : List (String × List (String × List (String × α)))}
    {inputs : List (String × List (String × α))} {conn : Connection}
    (hfs : dictGet step_outputs conn.from_step = none) :
    routeStep step_id step_outputs inputs conn = inputs := by
  unfold routeStep
  rw [hfs]
  by_cases hto : conn.to_step = step_id
  · rw [if_pos hto]
  · rw [if_neg hto]

theorem routeStep_no_channel {step_id : String}
    {step_outputs : List (String × List (String × List (String × α)))}
    {inputs : List (String × List (String × α))} {conn : Connection}
    {pred_outputs : List (String × List (String × α))}
    (hfs : dictGet step_outputs conn.from_step = some pred_outputs)
    (hfc : dictGet pred_outputs conn.from_channel = none) :
    routeStep step_id step_outputs inputs conn = inputs := by
  unfold routeStep
  rw [hfs]
  show (if conn.to_step = step_id then
      match dictGet pred_outputs conn.from_channel with
      | some items => dictSet inputs conn.to_channel items
      | none => inputs
    else inputs) = inputs
  rw [hfc]
  by_cases hto : conn.to_step = step_id
  · rw [if_pos hto]
  · rw [if_neg hto]

theorem routeStep_set {step_id : String}
    {step_outputs : List (String × List (String × List (String × α)))}
    {inputs : List (String × List (String × α))} {conn : Connection}
    {pred_outputs : List (String × List (String × α))}
    {items : List (String × α)} (hto : conn.to_step = step_id)
    (hfs : dictGet step_outputs conn.from_step = some pred_outputs)
    (hfc : dictGet pred_outputs conn.from_channel = some items) :
    routeStep step_id step_outputs inputs conn = dictSet inputs conn.to_channel items := by
  unfold routeStep
  rw [if_pos hto, hfs]
  show (match dictGet pred_outputs conn.from_channel with
      | some items => dictSet inputs conn.to_channel items
      | none => inputs) = dictSet inputs conn.to_channel items
  rw [hfc]

theorem getStepInputs_fold_char (step_id : String)
    (step_outputs : List (String × List (String × List (String × α)))) (c : String) :
    ∀ (conns : List Connection) (inputs : List (String × List (String × α))),
    dictGet (conns.foldl (routeStep step_id step_outputs) inputs) c =
      ((bindsOf conns step_id step_outputs c).getLast?).or (dictGet inputs c) := by
  intro conns
  induction conns with
  | nil =>
      intro inputs
      simp [bindsOf]
  | cons conn rest ih =>
      intro inputs
      rw [List.foldl_cons]
      by_cases hto : conn.to_step = step_id
      · cases hfs : dictGet step_outputs conn.from_step with
        | none =>
            rw [routeStep_no_source hfs, ih inputs]
            have hhead : bindsOf (conn :: rest) step_id step_outputs c =
                bindsOf rest step_id step_outputs c := by
              unfold bindsOf
              rw [List.filterMap_cons]
              by_cases hcc : conn.to_channel = c
              · rw [if_pos ⟨hto, hcc⟩, hfs]
                rfl
              · rw [if_neg (fun hand => hcc hand.2)]
            rw [hhead]
        | some pred_outputs =>
            cases hfc : dictGet pred_outputs conn.from_channel with
            | none =>
                rw [routeStep_no_channel hfs hfc, ih inputs]
                have hhead : bindsOf (conn :: rest) step_id step_outputs c =
                    bindsOf rest step_id step_outputs c := by
                  unfold bindsOf
                  rw [List.filterMap_cons]
                  by_cases hcc : conn.to_channel = c
                  · rw [if_pos ⟨hto, hcc⟩, hfs]
                    simp [hfc]
                  · rw [if_neg (fun hand => hcc hand.2)]
                rw [hhead]
            | some items =>
                rw [routeStep_set hto hfs hfc, ih (dictSet inputs conn.to_channel items)]
                by_cases hcc : conn.to_channel = c
                · have hhead : bindsOf (conn :: rest) step_id step_outputs c =
                      items :: bindsOf rest step_id step_outputs c := by
                    unfold bindsOf
                    rw [List.filterMap_cons]
                    rw [if_pos ⟨hto, hcc⟩, hfs]
                    simp [hfc]
                  rw [hhead]
                  rw [dictGet_set, if_pos hcc]
                  exact (cons_getLast?_or _ _ _).symm
                · have hhead : bindsOf (conn :: rest) step_id step_outputs c =
                      bindsOf rest step_id step_outputs c := by
                    unfold bindsOf
                    rw [List.filterMap_cons]
                    rw [if_neg (fun hand => hcc hand.2)]
                  rw [hhead]
                  rw [dictGet_set, if_neg hcc]
      · rw [routeStep_not_target hto, ih inputs]
        have hhead : bindsOf (conn :: rest) step_id step_outputs c =
            bindsOf rest step_id step_outputs c := by
          unfold bindsOf
          rw [List.filterMap_cons]
          rw [if_neg (fun hand => hto hand.1)]
        rw [hhead]

/-- Lookup characterization of the router: input channel `c` of a step holds
the value of the last connection in the log that successfully binds it, and is
absent when no connection binds it. -/
theorem getStepInputs_char (step_id : String)
    (step_outputs : List (String × List (String × List (String × α)))) (c : String) :
    dictGet (getStepInputs p step_id step_outputs) c =
      (bindsOf p.connections step_id step_outputs c).getLast? := by
  have hdef : getStepInputs p step_id step_outputs =
      p.connections.foldl (routeStep step_id step_outputs) [] := rfl
  rw [hdef, getStepInputs_fold_char step_id step_outputs c p.connections []]
  show ((bindsOf p.connections step_id step_outputs c).getLast?).or none = _
  cases (bindsOf p.connections step_id step_outputs c).getLast? <;> rfl

/-- A step (other than the entry step) whose assembled input map is empty is
skipped: the loop body leaves the recorded outputs unchanged. -/
theorem execStep_some {step_id : String} {st : PathStep α}
    (hst : dictGet p.steps step_id = some st) (initial_items : List (String × α))
    (start_step : Option String) (order : List String)
    (outs : List (String × List (String × List (String × α)))) :
    execStep p initial_items start_step order outs step_id =
      execStepCore p initial_items start_step order outs step_id st := by
  unfold execStep
  rw [hst]

theorem execStep_skip {step_id : String} {st : PathStep α}
    (hst : dictGet p.steps step_id = some st)
    {order : List String} {start_step : Option String}
    (hnotfirst : ¬(order.head? = some step_id ∧ start_step = none))
    {initial_items : List (String × α)}
    {outs : List (String × List (String × List (String × α)))}
    (hempty : getStepInputs p step_id outs = []) :
    execStep p initial_items start_step order outs step_id = .ok outs := by
  rw [execStep_some hst initial_items start_step order outs]
  unfold execStepCore
  rw [if_neg hnotfirst, hempty]
  rfl

/-- The entry step with a unique declared input channel receives
`initial_items` bound to that channel as its entire input map. -/
theorem execStep_first_single {s0 : String} {st : PathStep α} {c : String}
    (hst : dictGet p.steps s0 = some st) (hc : st.input_channels = [c])
    {rest : List String} {initial_items : List (String × α)}
    {outs : List (String × List (String × List (String × α)))} :
    execStep p initial_items none (s0 :: rest) outs s0 =
      .ok (dictSet outs s0 (st.process [(c, initial_items)])) := by
  rw [execStep_some hst initial_items none (s0 :: rest) outs]
  unfold execStepCore
  rw [if_pos ⟨rfl, rfl⟩, hc]
  rfl

/-- The entry step fails when it does not declare exactly one input
channel. -/
theorem execStep_first_multi {s0 : String} {st : PathStep α}
    (hst : dictGet p.steps s0 = some st) (hlen : st.input_channels.length ≠ 1)
    {rest : List String} {initial_items : List (String × α)}
    {outs : List (String × List (String × List (String × α)))} :
    execStep p initial_items none (s0 :: rest) outs s0 =
      .error ("First step " ++ s0
        ++ " has multiple input channels. Please specify explicit connections.") := by
  rw [execStep_some hst initial_items none (s0 :: rest) outs]
  unfold execStepCore
  rw [if_pos ⟨rfl, rfl⟩]
  cases hics : st.input_channels with
  | nil => rfl
  | cons c1 t =>
      cases t with
      | nil => rw [hics] at hlen; simp at hlen
      | cons c2 t2 => rfl

/-- The loop of `run` propagates a raise, skipping all remaining steps. -/
theorem runFold_error {initial_items : List (String × α)} {start_step : Option String}
    {order0 : List String} :
    ∀ (order : List String) (e : String),
    order.foldl
      (fun (acc : Except String (List (String × List (String × List (String × α)))))
          step_id =>
        match acc with
        | .error e => .error e
        | .ok outs => execStep p initial_items start_step order0 outs step_id)
      (.error e) =
      (.error e : Except String (List (String × List (String × List (String × α))))) := by
  intro order
  induction order with
  | nil => intro e; rfl
  | cons s rest ih => intro e; rw [List.foldl_cons]; exact ih e

theorem run_of_toposort_ok (hwf : WF p) {order : List String}
    (hok : topologicalSort p = .ok order) (initial_items : List (String × α))
    (start_step : Option String) :
    run p initial_items start_step = runLoop p initial_items start_step order := by
  have hnc : ¬ Cyclic p := (toposort_ok_iff_not_cyclic hwf).1 ⟨order, hok⟩
  unfold run
  rw [if_neg (by rw [(hasCycle_false_iff hwf).2 hnc]; simp), hok]

theorem run_of_cyclic (hwf : WF p) (hcyc : Cyclic p)
    (initial_items : List (String × α)) (start_step : Option String) :
    run p initial_items start_step = .error "Pipeline contains a cycle" := by
  unfold run
  rw [if_pos ((hasCycle_iff_cyclic hwf).2 hcyc)]

theorem withProcs_graph (f : String → List (String × List (String × α)) →
    List (String × List (String × α))) : (withProcs p f).graph = p.graph := rfl

theorem withProcs_hasCycle (f : String → List (String × List (String × α)) →
    List (String × List (String × α))) : hasCycle (withProcs p f) = hasCycle p := by
  unfold hasCycle withProcs
  have h1 : (p.steps.map (fun kv =>
      ((kv.1, { kv.2 with process := f kv.1 }) : String × PathStep α))).map Prod.fst =
      p.steps.map Prod.fst := by
    rw [List.map_map]
    rfl
  simp only [h1, List.length_map]

theorem reach_withProcs {f : String → List (String × List (String × α)) →
    List (String × List (String × α))} {a b : String} :
    Reach (withProcs p f) a b ↔ Reach p a b := by
  constructor
  · intro h
    induction h with
    | single e => exact Reach.single e
    | tail _ e ih => exact Reach.tail ih e
  · intro h
    induction h with
    | single e => exact Reach.single e
    | tail _ e ih => exact Reach.tail ih e

theorem cyclic_withProcs_iff (f : String → List (String × List (String × α)) →
    List (String × List (String × α))) : Cyclic (withProcs p f) ↔ Cyclic p :=
  exists_congr fun _ => reach_withProcs

theorem graphAppendEdge_get_self (g : List (String × List String)) (f t : String) :
    dictGet (graphAppendEdge g f t) f = some ((dictGet g f).getD [] ++ [t]) := by
  induction g with
  | nil => simp [graphAppendEdge, dictGet]
  | cons hd tl ih =>
      obtain ⟨a, l⟩ := hd
      by_cases ha : a = f
      · subst ha
        simp [graphAppendEdge, dictGet]
      · simp [graphAppendEdge, dictGet, ha, ih]

theorem graphAppendEdge_get_other (g : List (String × List String)) (f t k : String)
    (hk : k ≠ f) : dictGet (graphAppendEdge g f t) k = dictGet g k := by
  induction g with
  | nil =>
      have : ¬ f = k := fun hc => hk hc.symm
      simp [graphAppendEdge, dictGet, this]
  | cons hd tl ih =>
      obtain ⟨a, l⟩ := hd
      by_cases ha : a = f
      · subst ha
        have : ¬ a = k := fun hc => hk hc.symm
        simp [graphAppendEdge, dictGet, this]
      · by_cases hak : a = k
        · subst hak
          simp [graphAppendEdge, dictGet, ha]
        · simp [graphAppendEdge, dictGet, ha, hak, ih]

end ExecLemmas

/-!  The batch pipeline: the loop of `BatchPipeline.run` and its durable
state. -/

section BatchLemmas

variable {ρ : Type}

theorem batchRun_eq (steps : List (BatchStep ρ))
    (f : Int → Int → Except String (Option (Batch ρ))) (bs : Int) (fuel : Nat)
    (store : Store ρ) (resume : Bool) :
    batchRun steps f bs fuel store resume =
      batchLoop steps f bs fuel
        ((if resume then store.frontier_file.getD Frontier.init
          else Frontier.init).last_completed_batch_id + 1)
        (if resume then store.frontier_file.getD Frontier.init else Frontier.init)
        (if resume then store else { store with checkpoints := [] }) [] 0 := rfl

theorem batchLoop_succ (steps : List (BatchStep ρ))
    (f : Int → Int → Except String (Option (Batch ρ))) (bs : Int) (n : Nat)
    (bid : Int) (fr : Frontier) (st : Store ρ) (tr : List Int) (comm : Nat) :
    batchLoop steps f bs (n + 1) bid fr st tr comm =
      match f bid bs with
      | .error e => some ⟨st, fr, tr ++ [bid], comm, .error e⟩
      | .ok none => some ⟨st, fr, tr ++ [bid], comm, .ok ()⟩
      | .ok (some batch) =>
        match processSteps steps fr batch bid with
        | (.error e, fr2) => some ⟨st, fr2, tr ++ [bid], comm, .error e⟩
        | (.ok current, fr2) =>
          batchLoop steps f bs n (bid + 1) (fr2.advance_frontier bid current.end_row)
            ⟨some (fr2.advance_frontier bid current.end_row),
              intDictSet st.checkpoints current.batch_id current.data⟩
            (tr ++ [bid]) (comm + 1) := rfl

theorem intDictGet_set_self {β : Type} (d : List (Int × β)) (k : Int) (v : β) :
    intDictGet (intDictSet d k v) k = some v := by
  induction d with
  | nil => simp [intDictSet, intDictGet]
  | cons hd tl ih =>
      by_cases h : hd.1 = k
      · simp [intDictSet, intDictGet, h]
      · simp only [intDictSet, intDictGet, if_neg h]
        exact ih

theorem intDictGet_set_ne {β : Type} (d : List (Int × β)) (k : Int) (v : β) (j : Int)
    (h : k ≠ j) : intDictGet (intDictSet d k v) j = intDictGet d j := by
  induction d with
  | nil => simp [intDictSet, intDictGet, h]
  | cons hd tl ih =>
      by_cases hk : hd.1 = k
      · simp only [intDictSet, if_pos hk, intDictGet]
        rw [if_neg h, if_neg (show ¬ hd.1 = j from by rw [hk]; exact h)]
      · simp only [intDictSet, if_neg hk, intDictGet]
        by_cases hj : hd.1 = j
        · rw [if_pos hj, if_pos hj]
        · rw [if_neg hj, if_neg hj]
          exact ih

theorem processSteps_ok_batch_id :
    ∀ (steps : List (BatchStep ρ)) (fr : Frontier) (b : Batch ρ) (bid : Int)
      (b2 : Batch ρ) (fr2 : Frontier),
      (∀ s ∈ steps, ∀ x y, s.process x = .ok y → y.batch_id = x.batch_id) →
      processSteps steps fr b bid = (.ok b2, fr2) →
      b2.batch_id = b.batch_id := by
  intro steps
  induction steps with
  | nil =>
      intro fr b bid b2 fr2 _ h
      rw [show processSteps ([] : List (BatchStep ρ)) fr b bid = (.ok b, fr) from rfl] at h
      injection h with h1 h2
      injection h1 with h1
      rw [← h1]
  | cons s rest ih =>
      intro fr b bid b2 fr2 hs h
      rw [show processSteps (s :: rest) fr b bid =
        (match s.process b with
         | .error e => (.error e, fr)
         | .ok bnext => processSteps rest (fr.update_step s.name bid) bnext bid) from rfl] at h
      split at h
      · injection h with h1 h2
        exact absurd h1 (by simp)
      · rename_i bnext heq
        have hb : bnext.batch_id = b.batch_id :=
          hs s (List.mem_cons_self s rest) b bnext heq
        have hrec := ih (fr.update_step s.name bid) bnext bid b2 fr2
          (fun t ht x y hxy => hs t (List.mem_cons_of_mem s ht) x y hxy) h
        rw [hrec, hb]

theorem batchLoop_trace_ext (steps : List (BatchStep ρ))
    (f : Int → Int → Except String (Option (Batch ρ))) (bs : Int) :
    ∀ (fuel : Nat) (bid : Int) (fr : Frontier) (st : Store ρ) (tr : List Int)
      (comm : Nat) (out : RunOut ρ),
      batchLoop steps f bs fuel bid fr st tr comm = some out →
      ∃ r, out.fetch_calls = tr ++ r := by
  intro fuel
  induction fuel with
  | zero =>
      intro bid fr st tr comm out h
      simp [batchLoop] at h
  | succ n ih =>
      intro bid fr st tr comm out h
      rw [batchLoop_succ] at h
      split at h
      · injection h with h
        subst h
        exact ⟨[bid], rfl⟩
      · injection h with h
        subst h
        exact ⟨[bid], rfl⟩
      · split at h
        · injection h with h
          subst h
          exact ⟨[bid], rfl⟩
        · obtain ⟨r, hr⟩ := ih _ _ _ _ _ _ h
          refine ⟨bid :: r, ?_⟩
          rw [hr, List.append_assoc]
          rfl

theorem batchLoop_first_fetch (steps : List (BatchStep ρ))
    (f : Int → Int → Except String (Option (Batch ρ))) (bs : Int) (fuel : Nat)
    (bid : Int) (fr : Frontier) (st : Store ρ) (tr : List Int) (comm : Nat)
    (out : RunOut ρ)
    (h : batchLoop steps f bs fuel bid fr st tr comm = some out) :
    ∃ more, out.fetch_calls = tr ++ bid :: more := by
  cases fuel with
  | zero => simp [batchLoop] at h
  | succ n =>
      rw [batchLoop_succ] at h
      split at h
      · injection h with h
        subst h
        exact ⟨[], rfl⟩
      · injection h with h
        subst h
        exact ⟨[], rfl⟩
      · split at h
        · injection h with h
          subst h
          exact ⟨[], rfl⟩
        · obtain ⟨r, hr⟩ := batchLoop_trace_ext steps f bs n _ _ _ _ _ _ h
          refine ⟨r, ?_⟩
          rw [hr, List.append_assoc]
          rfl

theorem batchLoop_low_checkpoints (steps : List (BatchStep ρ))
    (f : Int → Int → Except String (Option (Batch ρ))) (bs : Int)
    (hfid : ∀ i b, f i bs = .ok (some b) → b.batch_id = i)
    (hsid : ∀ s ∈ steps, ∀ b b2, s.process b = .ok b2 → b2.batch_id = b.batch_id) :
    ∀ (fuel : Nat) (bid : Int) (fr : Frontier) (st : Store ρ) (tr : List Int)
      (comm : Nat) (out : RunOut ρ),
      batchLoop steps f bs fuel bid fr st tr comm = some out →
      ∀ j : Int, j < bid →
      intDictGet out.store.checkpoints j = intDictGet st.checkpoints j := by
  intro fuel
  induction fuel with
  | zero =>
      intro bid fr st tr comm out h
      simp [batchLoop] at h
  | succ n ih =>
      intro bid fr st tr comm out h j hj
      rw [batchLoop_succ] at h
      split at h
      · injection h with h
        subst h
        rfl
      · injection h with h
        subst h
        rfl
      · rename_i batch heq1
        split at h
        · injection h with h
          subst h
          rfl
        · rename_i current fr2 heq2
          have hKid : current.batch_id = bid := by
            rw [processSteps_ok_batch_id steps fr batch bid current fr2 hsid heq2]
            exact hfid bid batch heq1
          have h2 := ih _ _ _ _ _ _ h j (by omega)
          rw [h2]
          exact intDictGet_set_ne _ _ _ _ (by rw [hKid]; omega)

theorem range_map_shift (bid : Int) (n : Nat) :
    (List.range (n + 1)).map (fun (j : Nat) => bid + (j : Int)) =
      bid :: (List.range n).map (fun (j : Nat) => (bid + 1) + (j : Int)) := by
  rw [List.range_succ_eq_map, List.map_cons, List.map_map]
  congr 1
  · simp
  · refine List.map_congr_left ?_
    intro j _
    show bid + ((j + 1 : Nat) : Int) = (bid + 1) + (j : Int)
    push_cast
    ring

/-- Master characterization of an exceptionally terminating run of the batch
loop: some prefix of batches commits, the error aborts the loop right after,
and the durable store holds exactly the last commit. -/
theorem batchLoop_error_master (steps : List (BatchStep ρ))
    (f : Int → Int → Except String (Option (Batch ρ))) (bs : Int)
    (hfid : ∀ i b, f i bs = .ok (some b) → b.batch_id = i)
    (hsid : ∀ s ∈ steps, ∀ b b2, s.process b = .ok b2 → b2.batch_id = b.batch_id) :
    ∀ (fuel : Nat) (bid : Int) (fr : Frontier) (st : Store ρ) (tr : List Int)
      (comm : Nat) (out : RunOut ρ) (e : String),
      batchLoop steps f bs fuel bid fr st tr comm = some out →
      out.result = .error e →
      ∃ N : Nat,
        out.fetch_calls = tr ++ (List.range (N + 1)).map (fun (j : Nat) => bid + (j : Int)) ∧
        out.batches_processed = comm + N ∧
        (N = 0 → out.store = st) ∧
        (0 < N → ∃ g, out.store.frontier_file = some g ∧
          g.last_completed_batch_id = bid + (N : Int) - 1) ∧
        (∀ j : Int, j < bid ∨ bid + (N : Int) ≤ j →
          intDictGet out.store.checkpoints j = intDictGet st.checkpoints j) := by
  intro fuel
  induction fuel with
  | zero =>
      intro bid fr st tr comm out e h herr
      simp [batchLoop] at h
  | succ n ih =>
      intro bid fr st tr comm out e h herr
      rw [batchLoop_succ] at h
      split at h
      · injection h with h
        subst h
        refine ⟨0, ?_, ?_, fun _ => rfl, ?_, fun j hj => rfl⟩
        · show tr ++ [bid] = tr ++ (List.range 1).map (fun (j : Nat) => bid + (j : Int))
          simp [show List.range 1 = [0] from rfl]
        · show comm = comm + 0
          omega
        · intro h0
          exact absurd h0 (by omega)
      · injection h with h
        subst h
        simp at herr
      · rename_i batch heq1
        split at h
        · injection h with h
          subst h
          refine ⟨0, ?_, ?_, fun _ => rfl, ?_, fun j hj => rfl⟩
          · show tr ++ [bid] = tr ++ (List.range 1).map (fun (j : Nat) => bid + (j : Int))
            simp [show List.range 1 = [0] from rfl]
          · show comm = comm + 0
            omega
          · intro h0
            exact absurd h0 (by omega)
        · rename_i current fr2 heq2
          have hKid : current.batch_id = bid := by
            rw [processSteps_ok_batch_id steps fr batch bid current fr2 hsid heq2]
            exact hfid bid batch heq1
          obtain ⟨M, h1, h2, h3, h4, h5⟩ := ih _ _ _ _ _ _ _ h herr
          refine ⟨M + 1, ?_, ?_, ?_, ?_, ?_⟩
          · rw [h1]
            conv_rhs => rw [range_map_shift]
            rw [List.append_assoc]
            rfl
          · rw [h2]
            omega
          · intro h0
            exact absurd h0 (by omega)
          · intro _
            rcases Nat.eq_zero_or_pos M with hM | hM
            · subst hM
              have hst := h3 rfl
              rw [hst]
              refine ⟨fr2.advance_frontier bid current.end_row, rfl, ?_⟩
              show bid = bid + ((1 : Nat) : Int) - 1
              omega
            · obtain ⟨g, hg1, hg2⟩ := h4 hM
              refine ⟨g, hg1, ?_⟩
              rw [hg2]
              push_cast
              ring
          · intro j hj
            have hj2 : j < bid + 1 ∨ (bid + 1) + (M : Int) ≤ j := by
              rcases hj with hj | hj
              · exact Or.inl (by omega)
              · refine Or.inr ?_
                push_cast at hj
                omega
            have h6 := h5 j hj2
            rw [h6]
            refine intDictGet_set_ne _ _ _ _ ?_
            rw [hKid]
            rcases hj with hj | hj
            · omega
            · push_cast at hj
              omega

theorem charListLt_asymm : ∀ a b, charListLt a b = true → charListLt b a = false
  | [], [] => by simp [charListLt]
  | [], _ :: _ => fun _ => by simp [charListLt]
  | _ :: _, [] => by simp [charListLt]
  | a :: as, b :: bs => by
      intro h
      unfold charListLt at h ⊢
      by_cases h1 : a.toNat < b.toNat
      · rw [if_neg (show ¬ b.toNat < a.toNat by omega), if_pos h1]
      · rw [if_neg h1] at h
        by_cases h2 : b.toNat < a.toNat
        · rw [if_pos h2] at h
          exact absurd h (by simp)
        · rw [if_neg h2] at h
          rw [if_neg h2, if_neg h1]
          exact charListLt_asymm as bs h

theorem charListLt_trans : ∀ a b c, charListLt a b = true → charListLt b c = true →
    charListLt a c = true
  | a, [], _ => fun hab _ => by
      cases a <;> simp [charListLt] at hab
  | _, _ :: _, [] => fun _ hbc => by
      simp [charListLt] at hbc
  | [], _ :: _, _ :: _ => fun _ _ => by simp [charListLt]
  | x :: as, y :: bs, z :: cs => fun hab hbc => by
      unfold charListLt at hab hbc ⊢
      by_cases h1 : x.toNat < y.toNat
      · by_cases h2 : y.toNat < z.toNat
        · rw [if_pos (show x.toNat < z.toNat by omega)]
        · rw [if_neg h2] at hbc
          by_cases h3 : z.toNat < y.toNat
          · rw [if_pos h3] at hbc
            exact absurd hbc (by simp)
          · rw [if_pos (show x.toNat < z.toNat by omega)]
      · rw [if_neg h1] at hab
        by_cases h1b : y.toNat < x.toNat
        · rw [if_pos h1b] at hab
          exact absurd hab (by simp)
        · rw [if_neg h1b] at hab
          by_cases h2 : y.toNat < z.toNat
          · rw [if_pos (show x.toNat < z.toNat by omega)]
          · rw [if_neg h2] at hbc
            by_cases h3 : z.toNat < y.toNat
            · rw [if_pos h3] at hbc
              exact absurd hbc (by simp)
            · rw [if_neg h3] at hbc
              rw [if_neg (show ¬ x.toNat < z.toNat by omega),
                if_neg (show ¬ z.toNat < x.toNat by omega)]
              exact charListLt_trans as bs cs hab hbc

theorem strLt_asymm (a b : String) : strLt a b = true → strLt b a = false :=
  charListLt_asymm a.data b.data

theorem strLt_trans (a b c : String) : strLt a b = true → strLt b c = true →
    strLt a c = true :=
  charListLt_trans a.data b.data c.data

theorem mem_insertByName (x : String × List ρ) :
    ∀ l (z : String × List ρ), z ∈ insertByName x l → z = x ∨ z ∈ l
  | [], z => by
      intro hz
      simp [insertByName] at hz
      exact Or.inl hz
  | y :: ys, z => by
      intro hz
      unfold insertByName at hz
      by_cases hc : strLt x.1 y.1 = true
      · rw [if_pos hc] at hz
        rcases List.mem_cons.1 hz with hz | hz
        · exact Or.inl hz
        · exact Or.inr hz
      · rw [if_neg hc] at hz
        rcases List.mem_cons.1 hz with hz | hz
        · exact Or.inr (hz ▸ List.mem_cons_self y ys)
        · rcases mem_insertByName x ys z hz with h | h
          · exact Or.inl h
          · exact Or.inr (List.mem_cons_of_mem y h)

theorem insertByName_perm (x : String × List ρ) :
    ∀ l, (insertByName x l).Perm (x :: l)
  | [] => List.Perm.refl _
  | y :: ys => by
      unfold insertByName
      by_cases hc : strLt x.1 y.1 = true
      · rw [if_pos hc]
      · rw [if_neg hc]
        exact ((insertByName_perm x ys).cons y).trans (List.Perm.swap x y ys)

theorem sortByName_perm : ∀ l : List (String × List ρ), (sortByName l).Perm l
  | [] => List.Perm.refl _
  | x :: xs => (insertByName_perm x (sortByName xs)).trans ((sortByName_perm xs).cons x)

theorem pairwise_insertByName (x : String × List ρ) :
    ∀ l, List.Pairwise (fun a b => strLt b.1 a.1 = false) l →
      List.Pairwise (fun a b => strLt b.1 a.1 = false) (insertByName x l)
  | [], _ => by simp [insertByName]
  | y :: ys, h => by
      obtain ⟨hy, hys⟩ := List.pairwise_cons.1 h
      unfold insertByName
      by_cases hc : strLt x.1 y.1 = true
      · rw [if_pos hc]
        refine List.Pairwise.cons ?_ h
        intro z hz
        rcases List.mem_cons.1 hz with hz | hz
        · rw [hz]
          exact strLt_asymm _ _ hc
        · cases hzx : strLt z.1 x.1
          · rfl
          · exact absurd (strLt_trans _ _ _ hzx hc) (by rw [hy z hz]; simp)
      · rw [if_neg hc]
        refine List.Pairwise.cons ?_ (pairwise_insertByName x ys hys)
        intro z hz
        rcases mem_insertByName x ys z hz with hz | hz
        · rw [hz]
          cases hb : strLt x.1 y.1
          · rfl
          · exact absurd hb hc
        · exact hy z hz

theorem sortByName_pairwise :
    ∀ l : List (String × List ρ),
      List.Pairwise (fun a b => strLt b.1 a.1 = false) (sortByName l)
  | [] => List.Pairwise.nil
  | x :: xs => pairwise_insertByName x (sortByName xs) (sortByName_pairwise xs)

end BatchLemmas

/-!  Claim theorems for the graph pipeline. -/

section GraphClaims

variable {α : Type}

/-- C1: for every well-formed acyclic graph, `_topological_sort` succeeds and
its execution order contains every registered step exactly once, and for every
connection in the connection log the source step appears strictly before the
target step in that order. -/
theorem c1_topological_sort_correct {p : PathPipeline α} (hwf : WF p)
    (hnc : ¬ Cyclic p) :
    ∃ l, topologicalSort p = .ok l ∧
      (∀ s ∈ stepIds p, l.count s = 1) ∧
      (∀ s ∈ l, s ∈ stepIds p) ∧
      (∀ c ∈ p.connections, ∃ l₁ l₂ l₃,
        l = l₁ ++ c.from_step :: l₂ ++ c.to_step :: l₃) := by
  rcases (toposort_ok_iff_not_cyclic hwf).2 hnc with ⟨l, hok⟩
  obtain ⟨hnd, hsub, hcov, _⟩ := toposort_ok_spec hwf hok
  exact ⟨l, hok, fun s hs => List.count_eq_one_of_mem hnd (hcov s hs), hsub,
    toposort_connection_order hwf hok⟩

/-- Witness for C1 on the concrete acyclic pipeline `A -> B`. -/
theorem c1_witness :
    WF abPipeline ∧ ¬ Cyclic abPipeline ∧
    (∃ l, topologicalSort abPipeline = .ok l ∧
      (∀ s ∈ stepIds abPipeline, l.count s = 1) ∧
      (∀ s ∈ l, s ∈ stepIds abPipeline) ∧
      (∀ c ∈ abPipeline.connections, ∃ l₁ l₂ l₃,
        l = l₁ ++ c.from_step :: l₂ ++ c.to_step :: l₃)) := by
  have hwf : WF abPipeline := by decide
  have hnc : ¬ Cyclic abPipeline := (hasCycle_false_iff hwf).1 (by decide)
  exact ⟨hwf, hnc, c1_topological_sort_correct hwf hnc⟩

/-- C2: on a well-formed cyclic graph, `run` raises the cycle error — whatever
the steps' `process` transforms are, so no step is ever executed and no entry
is added to the run-scoped `step_outputs`; on a well-formed acyclic graph the
cycle check passes and `run` proceeds to the execution loop over the computed
order. -/
theorem c2_run_cycle_check {p : PathPipeline α} (hwf : WF p) :
    (Cyclic p →
      (∀ initial_items start_step, run p initial_items start_step =
        .error "Pipeline contains a cycle") ∧
      (∀ f initial_items start_step, run (withProcs p f) initial_items start_step =
        .error "Pipeline contains a cycle")) ∧
    (¬ Cyclic p → hasCycle p = false ∧ ∃ order, topologicalSort p = .ok order ∧
      ∀ initial_items start_step, run p initial_items start_step =
        runLoop p initial_items start_step order) := by
  constructor
  · intro hcyc
    refine ⟨run_of_cyclic hwf hcyc, ?_⟩
    intro f init st
    unfold run
    rw [if_pos (by rw [withProcs_hasCycle f, (hasCycle_iff_cyclic hwf).2 hcyc])]
  · intro hnc
    rcases (toposort_ok_iff_not_cyclic hwf).2 hnc with ⟨order, hok⟩
    exact ⟨(hasCycle_false_iff hwf).2 hnc, order, hok,
      fun init st => run_of_toposort_ok hwf hok init st⟩

/-- Witness for C2 on the concrete cycle `X -> Y -> Z -> X` and the acyclic
pipeline `A -> B`. -/
theorem c2_witness :
    WF xyzPipeline ∧ Cyclic xyzPipeline ∧
    run xyzPipeline [] none = .error "Pipeline contains a cycle" ∧
    WF abPipeline ∧ ¬ Cyclic abPipeline ∧ hasCycle abPipeline = false := by
  have hwf : WF xyzPipeline := by decide
  have hcyc : Cyclic xyzPipeline :=
    ⟨"X", @Reach.tail Nat xyzPipeline "X" "Z" "X"
      (@Reach.tail Nat xyzPipeline "X" "Y" "Z"
        (@Reach.single Nat xyzPipeline "X" "Y" (by unfold Edge; decide))
        (by unfold Edge; decide))
      (by unfold Edge; decide)⟩
  have hwf2 : WF abPipeline := by decide
  have hnc2 : ¬ Cyclic abPipeline := (hasCycle_false_iff hwf2).1 (by decide)
  exact ⟨hwf, hcyc, ((c2_run_cycle_check hwf).1 hcyc).1 [] none, hwf2, hnc2,
    ((c2_run_cycle_check hwf2).2 hnc2).1⟩

/-- C5: the router scans the connection log in insertion order; an input
channel holds the value bound by the last connection that successfully
delivers to it (last-write-wins), is absent (`none`, not an empty collection)
when no connection delivers, and a non-entry step whose assembled input map is
empty is skipped, recording no outputs. -/
theorem c5_router_semantics (p : PathPipeline α) :
    (∀ step_id step_outputs c,
      dictGet (getStepInputs p step_id step_outputs) c =
        (bindsOf p.connections step_id step_outputs c).getLast?) ∧
    (∀ (step_id : String) (st : PathStep α) (order : List String)
        (start_step : Option String) (initial_items : List (String × α)) outs,
      dictGet p.steps step_id = some st →
      ¬(order.head? = some step_id ∧ start_step = none) →
      getStepInputs p step_id outs = [] →
      execStep p initial_items start_step order outs step_id = .ok outs) := by
  refine ⟨fun step_id outs c => getStepInputs_char step_id outs c, ?_⟩
  intro step_id st order start_step init outs hst hnf hempty
  exact execStep_skip hst hnf hempty

/-- Witness for C5 on the fan-in pipeline: the doubly-bound channel holds the
last binding, and a step with an empty input map is skipped. -/
theorem c5_witness :
    (dictGet (getStepInputs fanPipeline "T" fanOutputs) "in" =
      (bindsOf fanPipeline.connections "T" fanOutputs "in").getLast?) ∧
    execStep fanPipeline [] (none : Option String) ["S1"] [] "T" = .ok [] := by
  refine ⟨(c5_router_semantics fanPipeline).1 "T" fanOutputs "in", ?_⟩
  exact (c5_router_semantics fanPipeline).2 "T" (wStep ["in"] ["out"]) ["S1"] none [] []
    rfl (by decide) rfl

/-- C6: `connect` fails exactly when a step id is unregistered or a channel is
undeclared, and on success the update is exactly one adjacency edge plus one
connection-log entry, with the step registry untouched — so a failing call
mutates nothing. -/
theorem c6_connect_atomic (p : PathPipeline α) (f t fc tc : String) :
    ((∃ e, connect p f t fc tc = .error e) ↔
      (dictGet p.steps f = none ∨ dictGet p.steps t = none ∨
        (∃ so tob, dictGet p.steps f = some so ∧ dictGet p.steps t = some tob ∧
          (fc ∉ so.output_channels ∨ tc ∉ tob.input_channels)))) ∧
    (∀ p', connect p f t fc tc = .ok p' →
      p'.steps = p.steps ∧
      p'.connections = p.connections ++ [⟨f, t, fc, tc⟩] ∧
      dictGet p'.graph f = some ((dictGet p.graph f).getD [] ++ [t]) ∧
      ∀ k, k ≠ f → dictGet p'.graph k = dictGet p.graph k) := by
  unfold connect
  cases hf : dictGet p.steps f with
  | none =>
      refine ⟨⟨fun _ => Or.inl rfl, fun _ => ⟨_, rfl⟩⟩, ?_⟩
      intro p' hp'
      exact absurd hp' (by simp)
  | some so =>
      cases ht : dictGet p.steps t with
      | none =>
          dsimp only
          refine ⟨⟨fun _ => Or.inr (Or.inl rfl), fun _ => ⟨_, rfl⟩⟩, ?_⟩
          intro p' hp'
          exact absurd hp' (by simp)
      | some tob =>
          dsimp only
          by_cases hfc : fc ∈ so.output_channels
          · have hfc' : ¬ (so.output_channels.contains fc = false) := by
              rw [(contains_true_iff _ _).2 hfc]
              simp
            rw [if_neg hfc']
            by_cases htc : tc ∈ tob.input_channels
            · have htc' : ¬ (tob.input_channels.contains tc = false) := by
                rw [(contains_true_iff _ _).2 htc]
                simp
              rw [if_neg htc']
              constructor
              · constructor
                · rintro ⟨e, he⟩
                  exact absurd he (by simp)
                · rintro (h | h | ⟨so', tob', hso', htob', hbad⟩)
                  · exact absurd h (by simp)
                  · exact absurd h (by simp)
                  · injection hso' with hso''
                    injection htob' with htob''
                    rcases hbad with hbad | hbad
                    · rw [← hso''] at hbad; exact absurd hfc hbad
                    · rw [← htob''] at hbad; exact absurd htc hbad
              · intro p' hp'
                injection hp' with hp'
                rw [← hp']
                refine ⟨rfl, rfl, graphAppendEdge_get_self p.graph f t, ?_⟩
                exact fun k hk => graphAppendEdge_get_other p.graph f t k hk
            · have htc' : tob.input_channels.contains tc = false :=
                (contains_false_iff _ _).2 htc
              rw [if_pos htc']
              refine ⟨⟨fun _ => Or.inr (Or.inr ⟨so, tob, rfl, rfl, Or.inr htc⟩),
                fun _ => ⟨_, rfl⟩⟩, ?_⟩
              intro p' hp'
              exact absurd hp' (by simp)
          · have hfc' : so.output_channels.contains fc = false :=
              (contains_false_iff _ _).2 hfc
            rw [if_pos hfc']
            refine ⟨⟨fun _ => Or.inr (Or.inr ⟨so, tob, rfl, rfl, Or.inl hfc⟩),
              fun _ => ⟨_, rfl⟩⟩, ?_⟩
            intro p' hp'
            exact absurd hp' (by simp)

/-- Witness for C6: a failing `connect` (undeclared output channel) and a
successful one on the concrete pipeline `A -> B`. -/
theorem c6_witness :
    ((∃ e, connect abPipeline "A" "B" "bogus" "in" = .error e) ↔
      (dictGet abPipeline.steps "A" = none ∨ dictGet abPipeline.steps "B" = none ∨
        (∃ so tob, dictGet abPipeline.steps "A" = some so ∧
          dictGet abPipeline.steps "B" = some tob ∧
          ("bogus" ∉ so.output_channels ∨ "in" ∉ tob.input_channels)))) ∧
    (∀ p', connect abPipeline "A" "B" "bogus" "in" = .ok p' →
      p'.steps = abPipeline.steps ∧
      p'.connections = abPipeline.connections ++ [⟨"A", "B", "bogus", "in"⟩] ∧
      dictGet p'.graph "A" = some ((dictGet abPipeline.graph "A").getD [] ++ ["B"]) ∧
      ∀ k, k ≠ "A" → dictGet p'.graph k = dictGet abPipeline.graph k) :=
  c6_connect_atomic abPipeline "A" "B" "bogus" "in"

/-- C7: with no explicit `start_step`, the first step of the execution order
receives `initial_items` bound to its unique declared input channel as its
entire input map; when it declares zero or several input channels, `run` fails
with the ambiguous-entry error. -/
theorem c7_entry_binding {p : PathPipeline α} (hwf : WF p)
    {s0 : String} {rest : List String} (hok : topologicalSort p = .ok (s0 :: rest))
    {st : PathStep α} (hst : dictGet p.steps s0 = some st) :
    (∀ c, st.input_channels = [c] → ∀ initial_items outs,
      execStep p initial_items none (s0 :: rest) outs s0 =
        .ok (dictSet outs s0 (st.process [(c, initial_items)]))) ∧
    (st.input_channels.length ≠ 1 → ∀ initial_items,
      run p initial_items none = .error ("First step " ++ s0 ++
        " has multiple input channels. Please specify explicit connections.")) := by
  constructor
  · intro c hc init outs
    exact execStep_first_single hst hc
  · intro hlen init
    rw [run_of_toposort_ok hwf hok init none]
    have hred : runLoop p init none (s0 :: rest) =
        rest.foldl
          (fun acc step_id =>
            match acc with
            | .error e => .error e
            | .ok outs => execStep p init none (s0 :: rest) outs step_id)
          (execStep p init none (s0 :: rest) [] s0) := rfl
    rw [hred, execStep_first_multi hst hlen]
    exact runFold_error rest _

/-- Witness for C7: the single-channel entry of `A -> B` receives the initial
items on its channel; the two-channel entry of `ab2Pipeline` aborts the run. -/
theorem c7_witness :
    execStep abPipeline [("f", 5)] none ["A", "B"] [] "A" =
      .ok (dictSet [] "A" ((wStep ["in"] ["out"]).process [("in", [("f", 5)])])) ∧
    run ab2Pipeline [] none = .error ("First step " ++ "A2" ++
      " has multiple input channels. Please specify explicit connections.") := by
  constructor
  · exact (@c7_entry_binding Nat abPipeline (by decide) "A" ["B"] rfl
      (wStep ["in"] ["out"]) rfl).1 "in" rfl [("f", 5)] []
  · exact (@c7_entry_binding Nat ab2Pipeline (by decide) "A2" ["B"] rfl
      (wStep ["l", "r"] ["out"]) rfl).2 (by decide) []

/-- C9 counterexample: on the concrete cycle `X -> Y -> Z -> X`, the cycle
error reported by `run` and the issue strings reported by `validate` are the
bare message `Pipeline contains a cycle`: none of them names any of the three
steps, so the reported error does not name every step of the cycle. -/
theorem c9_counterexample :
    Cyclic xyzPipeline ∧
    (∃ msg, run xyzPipeline ([] : List (String × Nat)) none = .error msg ∧
      ¬ ("X".data <:+: msg.data) ∧ ¬ ("Y".data <:+: msg.data) ∧
      ¬ ("Z".data <:+: msg.data)) ∧
    (∃ issues, validate xyzPipeline = .ok issues ∧ issues ≠ [] ∧
      ∀ issue ∈ issues, ¬ ("X".data <:+: issue.data) ∧
        ¬ ("Y".data <:+: issue.data) ∧ ¬ ("Z".data <:+: issue.data)) := by
  refine ⟨⟨"X", @Reach.tail Nat xyzPipeline "X" "Z" "X"
      (@Reach.tail Nat xyzPipeline "X" "Y" "Z"
        (@Reach.single Nat xyzPipeline "X" "Y" (by unfold Edge; decide))
        (by unfold Edge; decide))
      (by unfold Edge; decide)⟩, ?_, ?_⟩
  · exact ⟨"Pipeline contains a cycle", by decide, by decide, by decide, by decide⟩
  · exact ⟨["Pipeline contains a cycle",
      "No starting steps found (all steps have incoming connections)"],
      by decide, by decide, by decide⟩

/-- C9 (amended): `validate` and `run` report the bare cycle message without
step names; it is `_topological_sort` whose error value names the unprocessed
steps, and that error names every step lying on a cycle. -/
theorem c9_amended_cycle_naming {p : PathPipeline α} (hwf : WF p)
    {un : List String} (herr : topologicalSort p = .error un) :
    Cyclic p ∧ ∀ a, Reach p a a → a ∈ un :=
  toposort_err_spec hwf herr

/-- Witness for the amended C9 on the concrete cycle `X -> Y -> Z -> X`: the
sort error names exactly `X`, `Y` and `Z`. -/
theorem c9_amended_witness :
    WF xyzPipeline ∧ topologicalSort xyzPipeline = .error ["X", "Y", "Z"] ∧
    (Cyclic xyzPipeline ∧ ∀ a, Reach xyzPipeline a a → a ∈ ["X", "Y", "Z"]) := by
  have hwf : WF xyzPipeline := by decide
  have herr : topologicalSort xyzPipeline = .error ["X", "Y", "Z"] := by decide
  exact ⟨hwf, herr, c9_amended_cycle_naming hwf herr⟩

end GraphClaims

/-!  Claim theorems for the batch pipeline. -/

section BatchClaims

variable {ρ : Type}

/-- C3: when fetching a batch or a transform raises, `BatchPipeline.run`
aborts, propagating the error; the ids fetched are a contiguous prefix from
the start id, exactly the batches before the failing one are committed, the
persisted frontier records the last committed batch id (or the whole durable
store is untouched when nothing committed), and no checkpoint is written for
the failed batch or any other uncommitted id.  (The fetcher labels batches
with the requested id and transforms preserve the batch id, as in the
source.) -/
theorem c3_failed_run_durable_state (steps : List (BatchStep ρ))
    (f : Int → Int → Except String (Option (Batch ρ))) (bs : Int) (fuel : Nat)
    (store : Store ρ) (resume : Bool) (out : RunOut ρ) (e : String)
    (fr0 : Frontier) (st0 : Store ρ) (start : Int)
    (hfr0 : fr0 = if resume then store.frontier_file.getD Frontier.init else Frontier.init)
    (hst0 : st0 = if resume then store else { store with checkpoints := [] })
    (hstart : start = fr0.last_completed_batch_id + 1)
    (hfid : ∀ i b, f i bs = .ok (some b) → b.batch_id = i)
    (hsid : ∀ s ∈ steps, ∀ b b2, s.process b = .ok b2 → b2.batch_id = b.batch_id)
    (hrun : batchRun steps f bs fuel store resume = some out)
    (herr : out.result = .error e) :
    ∃ N : Nat,
      out.fetch_calls = (List.range (N + 1)).map (fun (j : Nat) => start + (j : Int)) ∧
      out.batches_processed = N ∧
      (N = 0 → out.store = st0) ∧
      (0 < N → ∃ g, out.store.frontier_file = some g ∧
        g.last_completed_batch_id = start + (N : Int) - 1) ∧
      (∀ j : Int, j < start ∨ start + (N : Int) ≤ j →
        intDictGet out.store.checkpoints j = intDictGet st0.checkpoints j) := by
  subst hfr0
  subst hstart
  subst hst0
  rw [batchRun_eq] at hrun
  obtain ⟨N, h1, h2, h3, h4, h5⟩ :=
    batchLoop_error_master steps f bs hfid hsid fuel _ _ _ _ _ out e hrun herr
  refine ⟨N, ?_, ?_, h3, h4, h5⟩
  · rw [h1]
    rfl
  · rw [h2]
    omega

/-- Witness for C3: one committed batch, then a raising fetch; the durable
store holds exactly the first commit and no checkpoint for the failed id. -/
theorem c3_witness :
    ∃ N : Nat,
      [(0 : Int), 1] = (List.range (N + 1)).map (fun (j : Nat) => (0 : Int) + (j : Int)) ∧
      1 = N ∧
      (N = 0 → (⟨some ⟨0, 4, 5, [("s1", 0)]⟩, [(0, [7])]⟩ : Store Nat) = ⟨none, []⟩) ∧
      (0 < N → ∃ g, some (⟨0, 4, 5, [("s1", 0)]⟩ : Frontier) = some g ∧
        g.last_completed_batch_id = 0 + (N : Int) - 1) ∧
      (∀ j : Int, j < 0 ∨ 0 + (N : Int) ≤ j →
        intDictGet [(0, [7])] j = intDictGet ([] : List (Int × List Nat)) j) := by
  refine c3_failed_run_durable_state [idStep] failFetcher 5 3 ⟨none, []⟩ false
    ⟨⟨some ⟨0, 4, 5, [("s1", 0)]⟩, [(0, [7])]⟩, ⟨0, 4, 5, [("s1", 0)]⟩, [0, 1], 1,
      .error "boom"⟩
    "boom" Frontier.init ⟨none, []⟩ 0 rfl rfl (by decide) ?_ ?_ rfl rfl
  · intro i b h
    by_cases hi : i = 0
    · subst hi
      simp [failFetcher] at h
      rw [← h]
    · simp [failFetcher, hi] at h
  · intro s hs b b2 h
    rw [List.mem_singleton] at hs
    subst hs
    have h2 : b = b2 := by
      have h3 : (Except.ok b : Except String (Batch Nat)) = .ok b2 := h
      injection h3
    rw [← h2]

/-- C4 counterexample: after a clean completion (the source exhausted at batch
id 2), a resumed run still calls the fetcher once — the probe that discovers
exhaustion — so it does not perform zero fetches, although it leaves the
durable store unchanged. -/
theorem c4_counterexample :
    ∃ out1 out2 : RunOut Nat,
      batchRun [idStep] finiteFetcher 5 4 ⟨none, []⟩ false = some out1 ∧
      out1.result = .ok () ∧
      batchRun [idStep] finiteFetcher 5 4 out1.store true = some out2 ∧
      out2.result = .ok () ∧
      out2.store = out1.store ∧
      out2.fetch_calls ≠ [] := by
  refine ⟨⟨⟨some ⟨1, 9, 10, [("s1", 1)]⟩, [(0, [7]), (1, [8])]⟩, ⟨1, 9, 10, [("s1", 1)]⟩,
      [0, 1, 2], 2, .ok ()⟩,
    ⟨⟨some ⟨1, 9, 10, [("s1", 1)]⟩, [(0, [7]), (1, [8])]⟩, ⟨1, 9, 10, [("s1", 1)]⟩,
      [2], 0, .ok ()⟩, rfl, rfl, rfl, rfl, rfl, by decide⟩

/-- C4 (amended): a resumed run starts fetching at the persisted
`last_completed_batch_id + 1` and modifies no checkpoint at or below that
frontier; after a clean prior completion it performs exactly one fetch — the
probe answered with no batch — commits nothing and leaves the durable store
bit-for-bit unchanged. -/
theorem c4_amended_resume (steps : List (BatchStep ρ))
    (f : Int → Int → Except String (Option (Batch ρ))) (bs : Int) :
    (∀ (fuel : Nat) (store : Store ρ) (g : Frontier) (out : RunOut ρ),
      store.frontier_file = some g →
      batchRun steps f bs fuel store true = some out →
      ∃ more, out.fetch_calls = (g.last_completed_batch_id + 1) :: more) ∧
    (∀ (fuel : Nat) (store : Store ρ) (g : Frontier) (out : RunOut ρ) (j : Int),
      (∀ i b, f i bs = .ok (some b) → b.batch_id = i) →
      (∀ s ∈ steps, ∀ b b2, s.process b = .ok b2 → b2.batch_id = b.batch_id) →
      store.frontier_file = some g →
      batchRun steps f bs fuel store true = some out →
      j ≤ g.last_completed_batch_id →
      intDictGet out.store.checkpoints j = intDictGet store.checkpoints j) ∧
    (∀ (fuel : Nat) (store : Store ρ) (g : Frontier),
      store.frontier_file = some g → 0 < fuel →
      f (g.last_completed_batch_id + 1) bs = .ok none →
      batchRun steps f bs fuel store true =
        some ⟨store, g, [g.last_completed_batch_id + 1], 0, .ok ()⟩) := by
  refine ⟨?_, ?_, ?_⟩
  · intro fuel store g out hg hrun
    rw [batchRun_eq, hg] at hrun
    have hrun2 : batchLoop steps f bs fuel (g.last_completed_batch_id + 1) g store
        [] 0 = some out := hrun
    obtain ⟨more, hm⟩ := batchLoop_first_fetch steps f bs fuel _ _ _ _ _ _ hrun2
    refine ⟨more, ?_⟩
    rw [hm]
    rfl
  · intro fuel store g out j hfid hsid hg hrun hj
    rw [batchRun_eq, hg] at hrun
    have hrun2 : batchLoop steps f bs fuel (g.last_completed_batch_id + 1) g store
        [] 0 = some out := hrun
    exact batchLoop_low_checkpoints steps f bs hfid hsid fuel _ _ _ _ _ _ hrun2 j
      (by omega)
  · intro fuel store g hg hpos hfetch
    obtain ⟨m, rfl⟩ : ∃ m, fuel = m + 1 := ⟨fuel - 1, by omega⟩
    rw [batchRun_eq, hg]
    show batchLoop steps f bs (m + 1) (g.last_completed_batch_id + 1) g store [] 0 = _
    rw [batchLoop_succ, hfetch]
    rfl

/-- Witness for the amended C4: the resumed run after the clean completion of
`finiteFetcher` fetches exactly the probe id 2 and returns the store
unchanged. -/
theorem c4_amended_witness :
    (∃ more, [(2 : Int)] = ((1 : Int) + 1) :: more) ∧
    batchRun [idStep] finiteFetcher 5 4
        ⟨some ⟨1, 9, 10, [("s1", 1)]⟩, [(0, [7]), (1, [8])]⟩ true =
      some ⟨⟨some ⟨1, 9, 10, [("s1", 1)]⟩, [(0, [7]), (1, [8])]⟩, ⟨1, 9, 10, [("s1", 1)]⟩,
        [(1 : Int) + 1], 0, .ok ()⟩ := by
  constructor
  · exact (c4_amended_resume [idStep] finiteFetcher 5).1 4
      ⟨some ⟨1, 9, 10, [("s1", 1)]⟩, [(0, [7]), (1, [8])]⟩ ⟨1, 9, 10, [("s1", 1)]⟩
      ⟨⟨some ⟨1, 9, 10, [("s1", 1)]⟩, [(0, [7]), (1, [8])]⟩, ⟨1, 9, 10, [("s1", 1)]⟩,
        [2], 0, .ok ()⟩ rfl rfl
  · exact (c4_amended_resume [idStep] finiteFetcher 5).2.2 4
      ⟨some ⟨1, 9, 10, [("s1", 1)]⟩, [(0, [7]), (1, [8])]⟩ ⟨1, 9, 10, [("s1", 1)]⟩
      rfl (by decide) rfl

/-- C8 counterexample: with checkpoints for batch ids 2 and 10,
`collect_results` concatenates in file-name order (`batch_10.parquet` sorts
before `batch_2.parquet`), which differs from increasing batch-id order. -/
theorem c8_counterexample :
    ∃ st : Store Nat, collect_results st ≠ collectByIdSpec st.checkpoints :=
  ⟨⟨none, [(2, [0]), (10, [1])]⟩, by decide⟩

/-- C8 (amended): `collect_results` concatenates the stored checkpoints in
increasing lexicographic file-name order — a permutation of the artifacts
sorted by `strLt` on `batch_<id>.parquet` names, which agrees with id order
only while the decimal representations have equal length — and returns the
empty result on an empty store. -/
theorem c8_amended_filename_order (st : Store ρ) :
    (sortByName (st.checkpoints.map (fun kv => (batchFileName kv.1, kv.2)))).Perm
        (st.checkpoints.map (fun kv => (batchFileName kv.1, kv.2))) ∧
    List.Pairwise (fun a b => strLt b.1 a.1 = false)
        (sortByName (st.checkpoints.map (fun kv => (batchFileName kv.1, kv.2)))) ∧
    collect_results st =
      ((sortByName (st.checkpoints.map (fun kv => (batchFileName kv.1, kv.2)))).map
          Prod.snd).flatten ∧
    (st.checkpoints = [] → collect_results st = []) := by
  refine ⟨sortByName_perm _, sortByName_pairwise _, rfl, ?_⟩
  intro h
  simp [collect_results, h, sortByName]

/-- Witness for the amended C8: the empty store yields the empty result, and
the two-checkpoint store of the counterexample is sorted as a permutation. -/
theorem c8_amended_witness :
    collect_results (⟨none, []⟩ : Store Nat) = [] ∧
    (sortByName ((⟨none, [(2, [0]), (10, [1])]⟩ : Store Nat).checkpoints.map
        (fun kv => (batchFileName kv.1, kv.2)))).Perm
      ((⟨none, [(2, [0]), (10, [1])]⟩ : Store Nat).checkpoints.map
        (fun kv => (batchFileName kv.1, kv.2))) :=
  ⟨(c8_amended_filename_order (⟨none, []⟩ : Store Nat)).2.2.2 rfl,
    (c8_amended_filename_order (⟨none, [(2, [0]), (10, [1])]⟩ : Store Nat)).1⟩

/-- C10: constructing a `BatchPipeline` succeeds exactly when the configured
step names are pairwise distinct, and a frontier step update is keyed
unambiguously: it sets the named entry and leaves every other name's entry
unchanged. -/
theorem c10_unique_step_names (steps : List (BatchStep ρ)) :
    (checkStepNames steps = .ok () ↔ (steps.map (fun s => s.name)).Nodup) ∧
    (∀ (fr : Frontier) (n : String) (b : Int),
      dictGet (fr.update_step n b).step_states n = some b ∧
      ∀ m, m ≠ n →
        dictGet (fr.update_step n b).step_states m = dictGet fr.step_states m) := by
  constructor
  · rw [show checkStepNames steps =
      (if ((steps.map (fun s => s.name)).length =
            (steps.map (fun s => s.name)).dedup.length) = false
       then .error "Duplicate step names are not allowed in the pipeline."
       else (.ok () : Except String Unit)) from rfl]
    constructor
    · intro h
      by_cases hlen : (steps.map (fun s => s.name)).length =
          (steps.map (fun s => s.name)).dedup.length
      · have heq := (List.dedup_sublist (steps.map (fun s => s.name))).eq_of_length
          hlen.symm
        rw [← heq]
        exact List.nodup_dedup _
      · rw [if_pos (propext (iff_of_false hlen (by simp)))] at h
        exact absurd h (by simp)
    · intro hnd
      have heq : (steps.map (fun s => s.name)).dedup = steps.map (fun s => s.name) :=
        List.dedup_eq_self.2 hnd
      have hP : (steps.map (fun s => s.name)).length =
          (steps.map (fun s => s.name)).dedup.length := by rw [heq]
      rw [if_neg (fun hc => absurd (hc ▸ hP) (by simp))]
  · intro fr n b
    constructor
    · rw [show (fr.update_step n b).step_states = dictSet fr.step_states n b from rfl,
        dictGet_set, if_pos rfl]
    · intro m hm
      rw [show (fr.update_step n b).step_states = dictSet fr.step_states n b from rfl,
        dictGet_set, if_neg (fun hc => hm hc.symm)]

/-- Witness for C10: duplicate names are refused; a concrete frontier update
is read back unambiguously. -/
theorem c10_witness :
    checkStepNames dupSteps ≠ .ok () ∧
    dictGet ((Frontier.init.update_step "s1" 3)).step_states "s1" = some 3 := by
  constructor
  · intro h
    exact absurd ((c10_unique_step_names dupSteps).1.1 h) (by decide)
  · exact ((c10_unique_step_names dupSteps).2 Frontier.init "s1" 3).1

end BatchClaims

end PipeSteps
